import Mathlib

/-!
A shallow embedding in Lean 4 of the numerical notebooks of the `etudes`
repository, together with theorems checking the repository's specification
against the code.

* `admm.ipynb` (R part): the LASSO-ADMM loop, its `soft.threshold` helper and
  the comparison with the ordinary-least-squares estimate.  Exact arithmetic is
  modelled over `ℚ`.
* `unnamed/part_000`: the conjugate-gradient solver, modelled over `ℚ`.
* `extended_kalman_filter.ipynb`: the extended-Kalman-filter update functions,
  modelled over `ℝ`.
* `admm.ipynb` (Python part): the Householder QR decomposition and the
  QR-based least-squares coefficients, modelled over `ℝ`.
* the random-number side of every notebook, modelled by a stream of draws and
  an explicit seed-to-stream map.
-/

namespace Etudes

open scoped Matrix

/-! ### `soft.threshold` from `admm.ipynb`

```r
soft.threshold <- function(x, thresh)
{
    sign(x) * max(abs(x) - thresh, 0)
}
```

R's `max` reduces *all* of its arguments — here the whole vector
`abs(x) - thresh` together with the scalar `0` — to a single scalar.
-/

/-- R's `sign` function on a single number: `-1`, `0` or `1`. -/
def rsign (a : ℚ) : ℚ := if a < 0 then -1 else if a = 0 then 0 else 1

/-- R's `max` of the vector `v` and the extra scalar `0`: the largest element
of `v ++ [0]`. -/
def rmax0 (v : List ℚ) : ℚ := v.foldr max 0

/-- `soft.threshold(x, thresh)` from `admm.ipynb`: `sign(x)` (component-wise)
times the single scalar `max(abs(x) - thresh, 0)`. -/
def softThreshold {N : ℕ} (x : Fin N → ℚ) (thresh : ℚ) : Fin N → ℚ :=
  fun i => rsign (x i) * rmax0 ((List.ofFn x).map (fun a => |a| - thresh))

/-- The largest absolute value of a component of `x` (equals `max_i |x i|`
whenever `N > 0`, since absolute values are nonnegative). -/
def maxAbs {N : ℕ} (x : Fin N → ℚ) : ℚ := rmax0 ((List.ofFn x).map (fun a => |a|))

/-- The textbook component-wise soft-thresholding operator
`s_t(x)_i = sign(x_i) * max(|x_i| - t, 0)`. -/
def softThresholdPointwise {N : ℕ} (x : Fin N → ℚ) (thresh : ℚ) : Fin N → ℚ :=
  fun i => rsign (x i) * max (|x i| - thresh) 0

/-! ### The conjugate-gradient solver from `unnamed/part_000`

```python
xk = sp.random.randn(N)
rk = A.dot(xk) - b
pk = -rk

while any(rk > 0.000001):
    alpha = rk.T.dot(rk) / pk.T.dot(A).dot(pk)
    xk = xk + alpha * pk
    rd = rk.T.dot(rk)
    rk = rk + alpha * A.dot(pk)
    beta = rk.T.dot(rk) / rd
    pk = -rk + beta * pk
```
-/

/-- The loop state of the conjugate-gradient solver. -/
structure CGState (N : ℕ) where
  xk : Fin N → ℚ
  rk : Fin N → ℚ
  pk : Fin N → ℚ

/-- The tolerance `0.000001` of the loop guard. -/
def cgTol : ℚ := 1 / 1000000

/-- The loop guard `any(rk > 0.000001)`: some component of `rk` exceeds the
tolerance.  (The test is one-sided: it ignores large negative components.) -/
def anyGtTol {N : ℕ} (r : Fin N → ℚ) : Prop := ∃ i, cgTol < r i

instance anyGtTolDec {N : ℕ} (r : Fin N → ℚ) : Decidable (anyGtTol r) :=
  decidable_of_iff (∃ i, cgTol < r i) Iff.rfl

/-- One iteration of the conjugate-gradient loop body. -/
def cgStep {N : ℕ} (A : Matrix (Fin N) (Fin N) ℚ) (s : CGState N) : CGState N :=
  let alpha := (s.rk ⬝ᵥ s.rk) / ((s.pk ᵥ* A) ⬝ᵥ s.pk)
  let xk := fun i => s.xk i + alpha * s.pk i
  let rd := s.rk ⬝ᵥ s.rk
  let rk := fun i => s.rk i + alpha * (A *ᵥ s.pk) i
  let beta := (rk ⬝ᵥ rk) / rd
  let pk := fun i => -(rk i) + beta * s.pk i
  ⟨xk, rk, pk⟩

/-- The initial state: `xk` is the starting point, `rk = A.dot(xk) - b`,
`pk = -rk`. -/
def cgInit {N : ℕ} (A : Matrix (Fin N) (Fin N) ℚ) (b x0 : Fin N → ℚ) : CGState N :=
  ⟨x0, fun i => (A *ᵥ x0) i - b i, fun i => -((A *ᵥ x0) i - b i)⟩

/-- The `while` loop, run with fuel `n`: iterate `cgStep` while the guard
holds, for at most `n` iterations. -/
def cgLoop {N : ℕ} (A : Matrix (Fin N) (Fin N) ℚ) : ℕ → CGState N → CGState N
  | 0, s => s
  | n + 1, s => if anyGtTol s.rk then cgLoop A n (cgStep A s) else s

/-- The number of loop-body executions until the guard fails, if it fails
within `n` iterations (`none` otherwise). -/
def cgIters {N : ℕ} (A : Matrix (Fin N) (Fin N) ℚ) : ℕ → CGState N → Option ℕ
  | 0, s => if anyGtTol s.rk then none else some 0
  | n + 1, s =>
    if anyGtTol s.rk then (cgIters A n (cgStep A s)).map (· + 1) else some 0

/-- Symmetric positive-definiteness over `ℚ`, as in the notebook's markdown:
the matrix is symmetric and `xᵀ A x > 0` for every `x ≠ 0`. -/
def SPD {N : ℕ} (A : Matrix (Fin N) (Fin N) ℚ) : Prop :=
  A.IsSymm ∧ ∀ x : Fin N → ℚ, x ≠ 0 → 0 < x ⬝ᵥ (A *ᵥ x)

/-! ### The LASSO-ADMM loop from `admm.ipynb`

```r
Xty <- t(X) %*% y
XtX <- t(X) %*% X
XtX.rho.in <- solve(XtX + rho * diag(p + 1))

x.step <- z.step <- u.step <- rep(1, p + 1)
for (i in seq(100))
{
    x.step <- XtX.rho.in %*% (Xty + rho*(z.step - u.step))
    z.step <- soft.threshold(x.step +  u.step, lambda / rho)
    u.step <- u.step + x.step - z.step
}
```
-/

/-- The initial ADMM state `x.step <- z.step <- u.step <- rep(1, p + 1)`. -/
def admmInit (P : ℕ) : (Fin P → ℚ) × (Fin P → ℚ) × (Fin P → ℚ) :=
  (fun _ => 1, fun _ => 1, fun _ => 1)

/-- One iteration of the ADMM loop body, with the precomputed matrix
`Minv = XtX.rho.in` and vector `Xty`. -/
def admmStep {P : ℕ} (Minv : Matrix (Fin P) (Fin P) ℚ) (Xty : Fin P → ℚ)
    (rho lambda : ℚ) (s : (Fin P → ℚ) × (Fin P → ℚ) × (Fin P → ℚ)) :
    (Fin P → ℚ) × (Fin P → ℚ) × (Fin P → ℚ) :=
  let x := Minv *ᵥ (fun i => Xty i + rho * (s.2.1 i - s.2.2 i))
  let z := softThreshold (fun i => x i + s.2.2 i) (lambda / rho)
  let u := fun i => s.2.2 i + x i - z i
  (x, z, u)

/-- The whole ADMM computation: precompute `Xty` and
`XtX.rho.in = solve(XtX + rho * diag(p + 1))`, run the loop body 100 times
from the all-ones state, and return the final `x.step`. -/
noncomputable def admmRun {n P : ℕ} (X : Matrix (Fin n) (Fin P) ℚ)
    (y : Fin n → ℚ) (lambda rho : ℚ) : Fin P → ℚ :=
  ((admmStep ((X.transpose * X + rho • (1 : Matrix (Fin P) (Fin P) ℚ))⁻¹)
      (X.transpose *ᵥ y) rho lambda)^[100] (admmInit P)).1

/-- Modelled from the spec: `ols.coefficients <- coef(lm(y ~ 0 + X))` — R's
`lm` fitting routine is library code, not part of the repository; the
ordinary-least-squares coefficients of the no-intercept model are
`(XᵀX)⁻¹ Xᵀ y`. -/
noncomputable def olsCoefficients {n P : ℕ} (X : Matrix (Fin n) (Fin P) ℚ)
    (y : Fin n → ℚ) : Fin P → ℚ :=
  (X.transpose * X)⁻¹ *ᵥ (X.transpose *ᵥ y)

/-! ### Helper lemmas about `soft.threshold` -/

lemma rmax0_cons (a : ℚ) (l : List ℚ) : rmax0 (a :: l) = max a (rmax0 l) := rfl

lemma rmax0_map_sub (t : ℚ) :
    ∀ l : List ℚ, l ≠ [] → (∀ a ∈ l, 0 ≤ a) →
      rmax0 (l.map (fun a => a - t)) = max (rmax0 l - t) 0
  | [], hne, _ => absurd rfl hne
  | [a], _, h0 => by
      have ha : 0 ≤ a := h0 a (by simp)
      simp only [List.map_cons, List.map_nil, rmax0_cons]
      show max (a - t) (0:ℚ) = max (max a 0 - t) 0
      rw [max_eq_left ha]
  | a :: b :: l, _, h0 => by
      have ih := rmax0_map_sub t (b :: l) (by simp)
        (fun x hx => h0 x (List.mem_cons_of_mem a hx))
      simp only [List.map_cons, rmax0_cons] at ih ⊢
      rw [ih, ← max_assoc, max_sub_sub_right]

lemma softThreshold_apply {N : ℕ} (x : Fin N → ℚ) (t : ℚ) (i : Fin N) :
    softThreshold x t i = rsign (x i) * max (maxAbs x - t) 0 := by
  have hne : (List.ofFn x).map (fun a => |a|) ≠ [] := by
    have : 0 < N := i.pos
    simp [List.ofFn_eq_nil_iff, Nat.pos_iff_ne_zero.mp this]
  have h0 : ∀ a ∈ (List.ofFn x).map (fun a => |a|), (0:ℚ) ≤ a := by
    intro a ha
    rcases List.mem_map.mp ha with ⟨b, _, rfl⟩
    exact abs_nonneg b
  have hcomp : (List.ofFn x).map (fun a => |a| - t)
      = ((List.ofFn x).map (fun a => |a|)).map (fun a => a - t) := by
    rw [List.map_map]; rfl
  unfold softThreshold maxAbs
  rw [hcomp, rmax0_map_sub t _ hne h0]

lemma abs_rsign_of_ne (a : ℚ) (h : a ≠ 0) : |rsign a| = 1 := by
  unfold rsign
  rcases lt_trichotomy a 0 with hlt | heq | hgt
  · rw [if_pos hlt]; norm_num
  · exact absurd heq h
  · rw [if_neg (not_lt.mpr hgt.le), if_neg h]; norm_num

/-! ### C10: the R `max` semantics of `soft.threshold` -/

/-- C10 counterexample: on the vector `(0, 2)` with threshold `0`,
`soft.threshold` returns `(0, 2)`, whose two components have different
absolute values — so it is not true that every component of the returned
vector has the same absolute value. -/
theorem softThreshold_components_differ :
    softThreshold ![(0:ℚ), 2] 0 = ![0, 2] ∧
    |softThreshold ![(0:ℚ), 2] 0 0| ≠ |softThreshold ![(0:ℚ), 2] 0 1| := by
  constructor
  · with_unfolding_all decide
  · with_unfolding_all decide

/-- C10 (amended): `soft.threshold(x, thresh)` equals, component-wise,
`sign(x_i)` times the single scalar `max(max_i |x_i| - thresh, 0)` (R's `max`
reduces the whole vector to one value); hence every component at a *nonzero*
entry of `x` has the same absolute value `max(max_i |x_i| - thresh, 0)`, while
a component at a zero entry is `0`.  On vectors of length one it coincides
with the component-wise soft-thresholding operator
`s_t(x_i) = sign(x_i) * max(|x_i| - t, 0)`, but in general it differs from it. -/
theorem softThreshold_spec :
    (∀ (N : ℕ) (x : Fin N → ℚ) (t : ℚ) (i : Fin N),
        softThreshold x t i = rsign (x i) * max (maxAbs x - t) 0) ∧
    (∀ (N : ℕ) (x : Fin N → ℚ) (t : ℚ) (i : Fin N), x i ≠ 0 →
        |softThreshold x t i| = max (maxAbs x - t) 0) ∧
    (∀ (N : ℕ) (x : Fin N → ℚ) (t : ℚ) (i : Fin N), x i = 0 →
        softThreshold x t i = 0) ∧
    (∀ (x : Fin 1 → ℚ) (t : ℚ), softThreshold x t = softThresholdPointwise x t) ∧
    softThreshold ![(1:ℚ), 2] 0 ≠ softThresholdPointwise ![(1:ℚ), 2] 0 := by
  refine ⟨fun N x t i => softThreshold_apply x t i, ?_, ?_, ?_, ?_⟩
  · intro N x t i hi
    rw [softThreshold_apply, abs_mul, abs_rsign_of_ne (x i) hi, one_mul,
      abs_of_nonneg (le_max_right _ _)]
  · intro N x t i hi
    rw [softThreshold_apply]
    simp [rsign, hi]
  · intro x t
    funext i
    have hi : i = 0 := Subsingleton.elim i 0
    subst hi
    rw [softThreshold_apply]
    have hmax : maxAbs x = |x 0| := by
      unfold maxAbs rmax0
      simp [List.ofFn_succ, max_eq_left (abs_nonneg (x 0))]
    rw [hmax]; rfl
  · intro hcontra
    have h1 := congrFun hcontra 0
    revert h1
    with_unfolding_all decide

/-- C10 witness: the amended description evaluated on the concrete vector
`(0, 2)` at its nonzero entry. -/
theorem softThreshold_spec_witness :
    ((![(0:ℚ), 2]) 1 ≠ 0) ∧
    |softThreshold ![(0:ℚ), 2] 0 1| = max (maxAbs ![(0:ℚ), 2] - 0) 0 :=
  ⟨by with_unfolding_all decide,
   softThreshold_spec.2.1 2 ![0, 2] 0 1 (by with_unfolding_all decide)⟩

/-! ### C3/C4: the conjugate-gradient loop -/

lemma cgStep_rk_invariant {N : ℕ} (A : Matrix (Fin N) (Fin N) ℚ) (b : Fin N → ℚ)
    (s : CGState N) (h : ∀ i, s.rk i = (A *ᵥ s.xk) i - b i) :
    ∀ i, (cgStep A s).rk i = (A *ᵥ (cgStep A s).xk) i - b i := by
  intro i
  show s.rk i + _ * (A *ᵥ s.pk) i
      = (A *ᵥ fun j => s.xk j + _ * s.pk j) i - b i
  set alpha := (s.rk ⬝ᵥ s.rk) / ((s.pk ᵥ* A) ⬝ᵥ s.pk) with halpha
  have hlin : (A *ᵥ fun j => s.xk j + alpha * s.pk j) i
      = (A *ᵥ s.xk) i + alpha * (A *ᵥ s.pk) i := by
    have : (fun j => s.xk j + alpha * s.pk j) = s.xk + alpha • s.pk := rfl
    rw [this, Matrix.mulVec_add, Matrix.mulVec_smul]
    rfl
  rw [hlin, h i]
  ring

lemma cgLoop_rk_invariant {N : ℕ} (A : Matrix (Fin N) (Fin N) ℚ) (b : Fin N → ℚ) :
    ∀ (n : ℕ) (s : CGState N), (∀ i, s.rk i = (A *ᵥ s.xk) i - b i) →
      ∀ i, (cgLoop A n s).rk i = (A *ᵥ (cgLoop A n s).xk) i - b i
  | 0, s, h => h
  | n + 1, s, h => by
    by_cases hg : anyGtTol s.rk
    · rw [cgLoop, if_pos hg]
      exact cgLoop_rk_invariant A b n (cgStep A s) (cgStep_rk_invariant A b s h)
    · rw [cgLoop, if_neg hg]
      exact h

/-- Symmetric positive-definiteness of the 1×1 identity matrix over `ℚ`. -/
lemma spd_one_fin1 : SPD (1 : Matrix (Fin 1) (Fin 1) ℚ) := by
  refine ⟨Matrix.isSymm_one, fun x hx => ?_⟩
  have hx0 : x 0 ≠ 0 := fun h =>
    hx (funext fun i => by fin_cases i; exact h)
  have hdot : x ⬝ᵥ ((1 : Matrix (Fin 1) (Fin 1) ℚ) *ᵥ x) = x 0 * x 0 := by
    simp [Matrix.one_mulVec, Matrix.dotProduct]
  rw [hdot]
  exact mul_self_pos.mpr hx0

/-- C3 counterexample: take the SPD matrix `A = (1)`, `b = (0)` and the
starting point `x0 = (-1)`.  The initial residual is `-1 ≤ 0.000001`, so the
guard `any(rk > 0.000001)` fails at once and the loop exits, yet the residual
component `A·xk - b = -1` has absolute value `1`, far above the tolerance. -/
theorem cg_exit_abs_residual_violated :
    SPD (1 : Matrix (Fin 1) (Fin 1) ℚ) ∧
    ¬ anyGtTol (cgLoop 1 3 (cgInit 1 ![(0:ℚ)] ![-1])).rk ∧
    ¬ (|((1 : Matrix (Fin 1) (Fin 1) ℚ) *ᵥ
          (cgLoop 1 3 (cgInit 1 ![(0:ℚ)] ![-1])).xk) 0 - (![(0:ℚ)]) 0| ≤ cgTol) :=
  ⟨spd_one_fin1, by with_unfolding_all decide, by with_unfolding_all decide⟩

/-- C3 (amended): whenever the loop `while any(rk > 0.000001)` exits, every
component of the residual `A·xk - b` of the final iterate is *at most*
`0.000001` — the guard is one-sided and puts no bound on how negative a
residual component may be. -/
theorem cg_exit_residual_le {N : ℕ} (A : Matrix (Fin N) (Fin N) ℚ)
    (b x0 : Fin N → ℚ) (n : ℕ) (_hA : SPD A)
    (hexit : ¬ anyGtTol (cgLoop A n (cgInit A b x0)).rk) :
    ∀ i, (A *ᵥ (cgLoop A n (cgInit A b x0)).xk) i - b i ≤ cgTol := by
  have hres := cgLoop_rk_invariant A b n (cgInit A b x0) (fun i => rfl)
  intro i
  rw [← hres i]
  unfold anyGtTol at hexit
  push_neg at hexit
  exact hexit i

/-- C3 witness: the amended statement on `A = (1)`, `b = (0)`, `x0 = (0)`,
where the loop exits at once with residual `0`. -/
theorem cg_exit_residual_le_witness :
    SPD (1 : Matrix (Fin 1) (Fin 1) ℚ) ∧
    (¬ anyGtTol (cgLoop 1 2 (cgInit 1 ![(0:ℚ)] ![0])).rk) ∧
    (∀ i, ((1 : Matrix (Fin 1) (Fin 1) ℚ) *ᵥ
        (cgLoop 1 2 (cgInit 1 ![(0:ℚ)] ![0])).xk) i - (![(0:ℚ)]) i ≤ cgTol) :=
  ⟨spd_one_fin1, by with_unfolding_all decide,
   cg_exit_residual_le 1 ![(0:ℚ)] ![0] 2 spd_one_fin1 (by with_unfolding_all decide)⟩

/-- C4 counterexample: the conjugate-gradient `while` loop does not run for a
fixed, predetermined number of iterations — for the SPD matrix `A = (1)` and
`b = (0)`, the start `x0 = (0)` gives `0` loop-body executions while the start
`x0 = (1)` gives `1`. -/
theorem cg_iteration_count_depends_on_input :
    SPD (1 : Matrix (Fin 1) (Fin 1) ℚ) ∧
    cgIters 1 5 (cgInit 1 ![(0:ℚ)] ![0]) = some 0 ∧
    cgIters 1 5 (cgInit 1 ![(0:ℚ)] ![1]) = some 1 :=
  ⟨spd_one_fin1, by with_unfolding_all decide, by with_unfolding_all decide⟩

/-! Finite termination of the conjugate-gradient loop in exact arithmetic.
The development below follows the classical argument: as long as the guard
keeps passing, the residuals of the unconditional iteration are nonzero and
pairwise orthogonal, and `ℚ^N` cannot hold `N + 1` such vectors, so within at
most `N` loop-body executions the guard fails and the `while` loop exits. -/

/-- The residual `rk` after `k` unconditional iterations of the loop body. -/
def cgR {N : ℕ} (A : Matrix (Fin N) (Fin N) ℚ) (s0 : CGState N) (k : ℕ) :
    Fin N → ℚ :=
  ((cgStep A)^[k] s0).rk

/-- The search direction `pk` after `k` unconditional iterations. -/
def cgP {N : ℕ} (A : Matrix (Fin N) (Fin N) ℚ) (s0 : CGState N) (k : ℕ) :
    Fin N → ℚ :=
  ((cgStep A)^[k] s0).pk

/-- The step size `alpha` computed by iteration `k` of the loop body. -/
def cgAlpha {N : ℕ} (A : Matrix (Fin N) (Fin N) ℚ) (s0 : CGState N) (k : ℕ) : ℚ :=
  (cgR A s0 k ⬝ᵥ cgR A s0 k) / ((cgP A s0 k ᵥ* A) ⬝ᵥ cgP A s0 k)

/-- The direction-update coefficient `beta` computed by iteration `k`. -/
def cgBeta {N : ℕ} (A : Matrix (Fin N) (Fin N) ℚ) (s0 : CGState N) (k : ℕ) : ℚ :=
  (cgR A s0 (k+1) ⬝ᵥ cgR A s0 (k+1)) / (cgR A s0 k ⬝ᵥ cgR A s0 k)

/-- The residual recurrence of the loop body: `rk ← rk + alpha * A.dot(pk)`. -/
lemma cgR_succ {N : ℕ} (A : Matrix (Fin N) (Fin N) ℚ) (s0 : CGState N) (k : ℕ) :
    cgR A s0 (k+1) = cgR A s0 k + cgAlpha A s0 k • (A *ᵥ cgP A s0 k) := by
  have h := Function.iterate_succ_apply' (cgStep A) k s0
  unfold cgAlpha cgR cgP
  rw [h]
  rfl

/-- The direction recurrence of the loop body: `pk ← -rk + beta * pk`. -/
lemma cgP_succ {N : ℕ} (A : Matrix (Fin N) (Fin N) ℚ) (s0 : CGState N) (k : ℕ) :
    cgP A s0 (k+1) = -(cgR A s0 (k+1)) + cgBeta A s0 k • cgP A s0 k := by
  have h := Function.iterate_succ_apply' (cgStep A) k s0
  unfold cgBeta cgR cgP
  rw [h]
  rfl

/-- For a symmetric matrix the bilinear form `u ⬝ᵥ (A *ᵥ v)` is symmetric. -/
lemma dot_mulVec_symm {N : ℕ} (A : Matrix (Fin N) (Fin N) ℚ) (hA : A.IsSymm)
    (u v : Fin N → ℚ) : u ⬝ᵥ (A *ᵥ v) = v ⬝ᵥ (A *ᵥ u) := by
  rw [Matrix.dotProduct_mulVec, ← Matrix.mulVec_transpose, hA.eq,
    Matrix.dotProduct_comm]

/-- For a symmetric matrix the code's quadratic form `pk.T.dot(A).dot(pk)`
equals `pk ⬝ᵥ (A *ᵥ pk)`. -/
lemma vecMul_dotProduct_comm {N : ℕ} (A : Matrix (Fin N) (Fin N) ℚ)
    (hA : A.IsSymm) (p : Fin N → ℚ) : (p ᵥ* A) ⬝ᵥ p = p ⬝ᵥ (A *ᵥ p) := by
  rw [← Matrix.mulVec_transpose, hA.eq, Matrix.dotProduct_comm]

/-- Over `ℚ`, the dot product of a nonzero vector with itself is positive. -/
lemma dotProduct_self_pos {N : ℕ} (v : Fin N → ℚ) (hv : v ≠ 0) : 0 < v ⬝ᵥ v := by
  obtain ⟨i, hi⟩ := Function.ne_iff.mp hv
  have hi' : v i ≠ 0 := hi
  have hsum : (0:ℚ) < ∑ j, v j * v j :=
    Finset.sum_pos' (fun j _ => mul_self_nonneg (v j))
      ⟨i, Finset.mem_univ i, mul_self_pos.mpr hi'⟩
  exact hsum

/-- `A *ᵥ pk` recovered from two consecutive residuals when `alpha ≠ 0`. -/
lemma mulVec_cgP_eq {N : ℕ} (A : Matrix (Fin N) (Fin N) ℚ) (s0 : CGState N)
    (i : ℕ) (hα : cgAlpha A s0 i ≠ 0) :
    A *ᵥ cgP A s0 i = (cgAlpha A s0 i)⁻¹ • (cgR A s0 (i+1) - cgR A s0 i) := by
  rw [cgR_succ, add_sub_cancel_left, smul_smul, inv_mul_cancel₀ hα, one_smul]

/-- A sum of scaled vectors dotted with a fixed vector, expanded. -/
lemma sum_smul_dotProduct {N : ℕ} {ι : Type} [Fintype ι]
    (g : ι → ℚ) (f : ι → (Fin N → ℚ)) (w : Fin N → ℚ) :
    (∑ j, g j • f j) ⬝ᵥ w = ∑ j, g j * (f j ⬝ᵥ w) := by
  have h1 : (∑ j, g j • f j) ⬝ᵥ w = ∑ i, ∑ j, g j * f j i * w i := by
    simp only [Matrix.dotProduct, Finset.sum_apply, Pi.smul_apply, smul_eq_mul,
      Finset.sum_mul]
  have h2 : ∑ j, g j * (f j ⬝ᵥ w) = ∑ j, ∑ i, g j * f j i * w i := by
    simp only [Matrix.dotProduct, Finset.mul_sum, mul_assoc]
  rw [h1, h2]
  exact Finset.sum_comm

/-- `ℚ^N` has no family of more than `N` nonzero pairwise-orthogonal
vectors: such a family is linearly independent. -/
lemma card_le_of_pairwise_orth {N K : ℕ} (f : Fin K → (Fin N → ℚ))
    (hnz : ∀ i, f i ≠ 0) (horth : ∀ i j, i ≠ j → f i ⬝ᵥ f j = 0) : K ≤ N := by
  have hli : LinearIndependent ℚ f := by
    rw [Fintype.linearIndependent_iff]
    intro g hg i
    have h1 : (∑ j, g j • f j) ⬝ᵥ f i = 0 := by
      rw [hg, Matrix.zero_dotProduct]
    rw [sum_smul_dotProduct] at h1
    rw [Finset.sum_eq_single i (fun j _ hj => by rw [horth j i hj, mul_zero])
      (fun hi => absurd (Finset.mem_univ i) hi)] at h1
    rcases mul_eq_zero.mp h1 with h | h
    · exact h
    · exact absurd h (ne_of_gt (dotProduct_self_pos (f i) (hnz i)))
  have hcard := hli.fintype_card_le_finrank
  rwa [Module.finrank_fintype_fun_eq_card, Fintype.card_fin, Fintype.card_fin]
    at hcard

/-- The classical conjugate-gradient invariants, by induction on the iteration
count: while all residuals up to `K` (exclusive) are nonzero, the residuals up
to `K` are pairwise orthogonal, the directions are pairwise `A`-conjugate,
later residuals are orthogonal to earlier directions, and
`rk ⬝ᵥ pk = -(rk ⬝ᵥ rk)`. -/
lemma cg_invariant {N : ℕ} (A : Matrix (Fin N) (Fin N) ℚ) (hA : SPD A)
    (s0 : CGState N) (hs0 : s0.pk = -s0.rk) :
    ∀ K : ℕ, (∀ j, j < K → cgR A s0 j ≠ 0) →
      (∀ i j, i < j → j ≤ K → cgR A s0 i ⬝ᵥ cgR A s0 j = 0) ∧
      (∀ i j, i < j → j ≤ K → cgP A s0 i ⬝ᵥ (A *ᵥ cgP A s0 j) = 0) ∧
      (∀ i j, i < j → j ≤ K → cgR A s0 j ⬝ᵥ cgP A s0 i = 0) ∧
      (∀ i, i ≤ K → cgR A s0 i ⬝ᵥ cgP A s0 i = -(cgR A s0 i ⬝ᵥ cgR A s0 i)) := by
  intro K
  induction K with
  | zero =>
    intro _
    refine ⟨fun i j hij hj => absurd (lt_of_lt_of_le hij hj) (Nat.not_lt_zero i),
      fun i j hij hj => absurd (lt_of_lt_of_le hij hj) (Nat.not_lt_zero i),
      fun i j hij hj => absurd (lt_of_lt_of_le hij hj) (Nat.not_lt_zero i),
      fun i hi => ?_⟩
    have hi0 : i = 0 := Nat.le_zero.mp hi
    subst hi0
    have hp0 : cgP A s0 0 = -(cgR A s0 0) := hs0
    rw [hp0, Matrix.dotProduct_neg]
  | succ K ih =>
    intro hnz
    obtain ⟨ha, hb, hc, hd⟩ := ih (fun j hj => hnz j (Nat.lt_succ_of_lt hj))
    have hnzK : ∀ j, j ≤ K → cgR A s0 j ≠ 0 :=
      fun j hj => hnz j (Nat.lt_succ_of_le hj)
    have hrr_pos : ∀ j, j ≤ K → 0 < cgR A s0 j ⬝ᵥ cgR A s0 j :=
      fun j hj => dotProduct_self_pos _ (hnzK j hj)
    have hp_ne : ∀ j, j ≤ K → cgP A s0 j ≠ 0 := by
      intro j hj h0
      have h1 := hd j hj
      rw [h0, Matrix.dotProduct_zero] at h1
      exact absurd (neg_eq_zero.mp h1.symm) (ne_of_gt (hrr_pos j hj))
    have hpap_pos : ∀ j, j ≤ K → 0 < cgP A s0 j ⬝ᵥ (A *ᵥ cgP A s0 j) :=
      fun j hj => hA.2 _ (hp_ne j hj)
    have halpha_eq : ∀ j, cgAlpha A s0 j
        = (cgR A s0 j ⬝ᵥ cgR A s0 j) / (cgP A s0 j ⬝ᵥ (A *ᵥ cgP A s0 j)) := by
      intro j
      unfold cgAlpha
      rw [vecMul_dotProduct_comm A hA.1]
    have halpha_pos : ∀ j, j ≤ K → 0 < cgAlpha A s0 j := by
      intro j hj
      rw [halpha_eq j]
      exact div_pos (hrr_pos j hj) (hpap_pos j hj)
    have halpha_mul : ∀ j, j ≤ K →
        cgAlpha A s0 j * (cgP A s0 j ⬝ᵥ (A *ᵥ cgP A s0 j))
          = cgR A s0 j ⬝ᵥ cgR A s0 j := by
      intro j hj
      rw [halpha_eq j]
      exact div_mul_cancel₀ _ (ne_of_gt (hpap_pos j hj))
    have hc' : ∀ i, i ≤ K → cgR A s0 (K+1) ⬝ᵥ cgP A s0 i = 0 := by
      intro i hi
      rw [cgR_succ, Matrix.add_dotProduct, Matrix.smul_dotProduct]
      rcases Nat.lt_or_ge i K with hiK | hiK
      · rw [hc i K hiK le_rfl,
          Matrix.dotProduct_comm (A *ᵥ cgP A s0 K) (cgP A s0 i),
          hb i K hiK le_rfl, smul_zero, add_zero]
      · have hiK2 : i = K := le_antisymm hi hiK
        rw [hiK2, hd K le_rfl,
          Matrix.dotProduct_comm (A *ᵥ cgP A s0 K) (cgP A s0 K),
          smul_eq_mul, halpha_mul K le_rfl, neg_add_cancel]
    have ha' : ∀ i, i ≤ K → cgR A s0 i ⬝ᵥ cgR A s0 (K+1) = 0 := by
      intro i hi
      cases i with
      | zero =>
        have hr0 : cgR A s0 0 = -(cgP A s0 0) := by
          show s0.rk = -(s0.pk)
          rw [hs0, neg_neg]
        rw [hr0, Matrix.neg_dotProduct, Matrix.dotProduct_comm,
          hc' 0 (Nat.zero_le K), neg_zero]
      | succ i' =>
        have hi' : i' ≤ K := Nat.le_of_succ_le hi
        have hrsucc : cgR A s0 (i'+1)
            = cgBeta A s0 i' • cgP A s0 i' - cgP A s0 (i'+1) := by
          rw [cgP_succ, sub_add_eq_sub_sub, sub_neg_eq_add, add_sub_cancel_left]
        rw [hrsucc, Matrix.sub_dotProduct, Matrix.smul_dotProduct,
          Matrix.dotProduct_comm (cgP A s0 i') (cgR A s0 (K+1)), hc' i' hi',
          Matrix.dotProduct_comm (cgP A s0 (i'+1)) (cgR A s0 (K+1)), hc' (i'+1) hi,
          smul_zero, sub_zero]
    have hd' : cgR A s0 (K+1) ⬝ᵥ cgP A s0 (K+1)
        = -(cgR A s0 (K+1) ⬝ᵥ cgR A s0 (K+1)) := by
      rw [cgP_succ, Matrix.dotProduct_add, Matrix.dotProduct_neg,
        Matrix.dotProduct_smul, hc' K le_rfl, smul_zero, add_zero]
    have hb' : ∀ i, i ≤ K → cgP A s0 i ⬝ᵥ (A *ᵥ cgP A s0 (K+1)) = 0 := by
      intro i hi
      have hsym : cgP A s0 i ⬝ᵥ (A *ᵥ cgR A s0 (K+1))
          = cgR A s0 (K+1) ⬝ᵥ (A *ᵥ cgP A s0 i) := dot_mulVec_symm A hA.1 _ _
      rw [cgP_succ, Matrix.mulVec_add, Matrix.mulVec_neg, Matrix.mulVec_smul,
        Matrix.dotProduct_add, Matrix.dotProduct_neg, Matrix.dotProduct_smul,
        hsym]
      rcases Nat.lt_or_ge i K with hiK | hiK
      · rw [mulVec_cgP_eq A s0 i (ne_of_gt (halpha_pos i hi)),
          Matrix.dotProduct_smul, Matrix.dotProduct_sub]
        have h1 : cgR A s0 (K+1) ⬝ᵥ cgR A s0 (i+1) = 0 := by
          rw [Matrix.dotProduct_comm]
          exact ha' (i+1) hiK
        have h2 : cgR A s0 (K+1) ⬝ᵥ cgR A s0 i = 0 := by
          rw [Matrix.dotProduct_comm]
          exact ha' i hi
        rw [h1, h2, sub_zero, smul_zero, neg_zero, zero_add,
          hb i K hiK le_rfl, smul_zero]
      · have hiK2 : i = K := le_antisymm hi hiK
        rw [hiK2, mulVec_cgP_eq A s0 K (ne_of_gt (halpha_pos K le_rfl)),
          Matrix.dotProduct_smul, Matrix.dotProduct_smul,
          Matrix.dotProduct_sub, Matrix.dotProduct_sub]
        have h2 : cgR A s0 (K+1) ⬝ᵥ cgR A s0 K = 0 := by
          rw [Matrix.dotProduct_comm]
          exact ha' K le_rfl
        have h3 : cgP A s0 K ⬝ᵥ cgR A s0 (K+1) = 0 := by
          rw [Matrix.dotProduct_comm]
          exact hc' K le_rfl
        have h4 : cgP A s0 K ⬝ᵥ cgR A s0 K = -(cgR A s0 K ⬝ᵥ cgR A s0 K) := by
          rw [Matrix.dotProduct_comm]
          exact hd K le_rfl
        rw [h2, h3, h4, sub_zero, zero_sub, neg_neg]
        simp only [smul_eq_mul]
        have h5 : cgBeta A s0 K * ((cgAlpha A s0 K)⁻¹ * (cgR A s0 K ⬝ᵥ cgR A s0 K))
            = (cgAlpha A s0 K)⁻¹ * (cgR A s0 (K+1) ⬝ᵥ cgR A s0 (K+1)) := by
          have hmm : cgBeta A s0 K * (cgR A s0 K ⬝ᵥ cgR A s0 K)
              = cgR A s0 (K+1) ⬝ᵥ cgR A s0 (K+1) := by
            unfold cgBeta
            exact div_mul_cancel₀ _ (ne_of_gt (hrr_pos K le_rfl))
          calc cgBeta A s0 K * ((cgAlpha A s0 K)⁻¹ * (cgR A s0 K ⬝ᵥ cgR A s0 K))
              = (cgAlpha A s0 K)⁻¹
                  * (cgBeta A s0 K * (cgR A s0 K ⬝ᵥ cgR A s0 K)) := by ring
            _ = (cgAlpha A s0 K)⁻¹
                  * (cgR A s0 (K+1) ⬝ᵥ cgR A s0 (K+1)) := by rw [hmm]
        rw [h5, neg_add_cancel]
    refine ⟨fun i j hij hj => ?_, fun i j hij hj => ?_,
      fun i j hij hj => ?_, fun i hi => ?_⟩
    · rcases eq_or_lt_of_le hj with hj1 | hj1
      · subst hj1
        exact ha' i (Nat.lt_succ_iff.mp hij)
      · exact ha i j hij (Nat.lt_succ_iff.mp hj1)
    · rcases eq_or_lt_of_le hj with hj1 | hj1
      · subst hj1
        exact hb' i (Nat.lt_succ_iff.mp hij)
      · exact hb i j hij (Nat.lt_succ_iff.mp hj1)
    · rcases eq_or_lt_of_le hj with hj1 | hj1
      · subst hj1
        exact hc' i (Nat.lt_succ_iff.mp hij)
      · exact hc i j hij (Nat.lt_succ_iff.mp hj1)
    · rcases eq_or_lt_of_le hi with hi1 | hi1
      · subst hi1
        exact hd'
      · exact hd i (Nat.lt_succ_iff.mp hi1)

/-- While the guard keeps passing, the fuelled `while` loop agrees with the
unconditional iteration of the loop body. -/
lemma cgLoop_eq_iterate {N : ℕ} (A : Matrix (Fin N) (Fin N) ℚ) :
    ∀ n : ℕ, ∀ s : CGState N, (∀ i, i < n → anyGtTol (cgR A s i)) →
      cgLoop A n s = (cgStep A)^[n] s := by
  intro n
  induction n with
  | zero =>
    intro s _
    rfl
  | succ n ih =>
    intro s h
    have h0 : anyGtTol s.rk := h 0 (Nat.succ_pos n)
    rw [cgLoop, if_pos h0, Function.iterate_succ_apply]
    exact ih (cgStep A s) (fun i hi => by
      have h2 := h (i + 1) (Nat.succ_lt_succ hi)
      have hshift : cgR A s (i + 1) = cgR A (cgStep A s) i := by
        show ((cgStep A)^[i+1] s).rk = ((cgStep A)^[i] (cgStep A s)).rk
        rw [Function.iterate_succ_apply]
      rwa [hshift] at h2)

/-- If the guard passes at iterates `0, …, k-1` and fails at iterate `k`,
then the loop counter with any fuel `m ≥ k` reports exactly `k` loop-body
executions. -/
lemma cgIters_eq_of_first_fail {N : ℕ} (A : Matrix (Fin N) (Fin N) ℚ) :
    ∀ m k : ℕ, ∀ s : CGState N, k ≤ m →
      (∀ i, i < k → anyGtTol (cgR A s i)) → ¬ anyGtTol (cgR A s k) →
      cgIters A m s = some k := by
  intro m k
  induction k generalizing m with
  | zero =>
    intro s _ _ hfail
    have hf : ¬ anyGtTol s.rk := hfail
    cases m with
    | zero => rw [cgIters, if_neg hf]
    | succ m' => rw [cgIters, if_neg hf]
  | succ k ih =>
    intro s hkm hguard hfail
    obtain ⟨m', rfl⟩ : ∃ m', m = m' + 1 := ⟨m - 1, by omega⟩
    have h0 : anyGtTol s.rk := hguard 0 (Nat.succ_pos k)
    have hshift : ∀ i, cgR A s (i + 1) = cgR A (cgStep A s) i := by
      intro i
      show ((cgStep A)^[i+1] s).rk = ((cgStep A)^[i] (cgStep A s)).rk
      rw [Function.iterate_succ_apply]
    rw [cgIters, if_pos h0]
    have hrec := ih m' (cgStep A s) (by omega)
      (fun i hi => by
        have h2 := hguard (i + 1) (Nat.succ_lt_succ hi)
        rwa [hshift i] at h2)
      (by
        have h3 := hfail
        rwa [hshift k] at h3)
    rw [hrec]
    rfl

/-- C4 (amended): not every iterative routine of the repository runs for a
fixed, predetermined number of iterations — the conjugate-gradient `while`
loop's count depends on its input — but the termination assertion holds in
full: in exact arithmetic, for every symmetric positive-definite `A`, every
`b` and every starting iterate `x0`, the conjugate-gradient loop terminates
within at most `N` loop-body executions (`N` the dimension): with fuel `N`
the loop counter reports some count `n ≤ N`, and after those `n` loop-body
executions the guard `any(rk > 0.000001)` fails, so the `while` loop exits. -/
theorem cg_terminates {N : ℕ} (A : Matrix (Fin N) (Fin N) ℚ)
    (b x0 : Fin N → ℚ) (hA : SPD A) :
    ∃ n, n ≤ N ∧ cgIters A N (cgInit A b x0) = some n ∧
      ¬ anyGtTol (cgLoop A n (cgInit A b x0)).rk := by
  have hex : ∃ k, k ≤ N ∧ ¬ anyGtTol (cgR A (cgInit A b x0) k) := by
    by_contra hcon
    push_neg at hcon
    have hnz : ∀ j, j ≤ N → cgR A (cgInit A b x0) j ≠ 0 := by
      intro j hj h0
      obtain ⟨i, hi⟩ := hcon j hj
      rw [h0, Pi.zero_apply] at hi
      exact absurd hi (by norm_num [cgTol])
    obtain ⟨ha, _hb, _hc, _hd⟩ := cg_invariant A hA (cgInit A b x0) rfl N
      (fun j hj => hnz j (le_of_lt hj))
    have hle : N + 1 ≤ N := by
      refine card_le_of_pairwise_orth
        (fun k : Fin (N+1) => cgR A (cgInit A b x0) k)
        (fun k => hnz k (Nat.lt_succ_iff.mp k.isLt)) ?_
      intro i j hij
      have hvne : (i : ℕ) ≠ (j : ℕ) := fun h => hij (Fin.ext h)
      rcases hvne.lt_or_lt with h | h
      · exact ha i j h (Nat.lt_succ_iff.mp j.isLt)
      · rw [Matrix.dotProduct_comm]
        exact ha j i h (Nat.lt_succ_iff.mp i.isLt)
    omega
  obtain ⟨k0, hk0N, hk0⟩ := hex
  have hex' : ∃ k, ¬ anyGtTol (cgR A (cgInit A b x0) k) := ⟨k0, hk0⟩
  have hnN : Nat.find hex' ≤ N := le_trans (Nat.find_min' hex' hk0) hk0N
  have hguard : ∀ i, i < Nat.find hex' → anyGtTol (cgR A (cgInit A b x0) i) :=
    fun i hi => not_not.mp (Nat.find_min hex' hi)
  refine ⟨Nat.find hex', hnN, ?_, ?_⟩
  · exact cgIters_eq_of_first_fail A N (Nat.find hex') (cgInit A b x0) hnN
      hguard (Nat.find_spec hex')
  · rw [cgLoop_eq_iterate A (Nat.find hex') (cgInit A b x0) hguard]
    exact Nat.find_spec hex'

/-! ### C1: the ADMM loop with `lambda = 0` misses the OLS estimate

With `lambda = 0` the intended element-wise soft-thresholding would make
`z.step = x.step + u.step` and the iteration would converge to the OLS
coefficients.  Because R's `max` collapses the whole vector, the `z.step`
update instead forces all components towards a common magnitude.  On the
design `X = I₂`, `y = (2, 1)` the iterates keep the exact shape
`x = (2, t)`, `z = (2, 2)`, `u = (0, 1 - t)` with `3/2 ≤ t < 2`, so after the
100 iterations `x.step = (2, t)` with `t ≥ 3/2`, while the OLS estimate is
`(2, 1)`. -/

lemma admm_demo_inv :
    ((1 : Matrix (Fin 2) (Fin 2) ℚ).transpose * 1
        + (1:ℚ) • (1 : Matrix (Fin 2) (Fin 2) ℚ))⁻¹ = !![(1:ℚ)/2, 0; 0, 1/2] := by
  apply Matrix.inv_eq_left_inv
  rw [Matrix.transpose_one, Matrix.one_mul, one_smul]
  ext i j
  fin_cases i <;> fin_cases j <;>
    simp [Matrix.mul_apply, Fin.sum_univ_two, Matrix.one_apply] <;> norm_num

lemma admm_demo_step (t : ℚ) (h1 : 3/2 ≤ t) (h2 : t < 2) :
    admmStep !![(1:ℚ)/2, 0; 0, 1/2] ![2, 1] 1 0 (![2, t], ![2, 2], ![0, 1 - t])
      = (![2, 1 + t/2], ![2, 2], ![0, 1 - (1 + t/2)]) := by
  have hpos : (0:ℚ) < 2 - t/2 := by linarith
  have hle2 : 2 - t/2 ≤ 2 := by linarith
  have hx : !![(1:ℚ)/2, 0; 0, 1/2] *ᵥ
      (fun i => (![(2:ℚ), 1]) i + 1 * ((![(2:ℚ), 2]) i - (![(0:ℚ), 1 - t]) i))
      = ![2, 1 + t/2] := by
    funext i
    fin_cases i <;>
      simp [Matrix.mulVec, Matrix.dotProduct, Fin.sum_univ_two] <;> ring
  have harg : (fun i => (![(2:ℚ), 1 + t/2]) i + (![(0:ℚ), 1 - t]) i)
      = ![2, 2 - t/2] := by
    funext i
    fin_cases i <;> simp <;> ring
  have hofn : List.ofFn ![(2:ℚ), 2 - t/2] = [2, 2 - t/2] := by
    simp [List.ofFn_succ]
  have hmax : rmax0 (([2, 2 - t/2] : List ℚ).map (fun a => |a| - 0 / 1)) = 2 := by
    simp only [List.map_cons, List.map_nil, rmax0_cons]
    have h2' : |(2:ℚ)| = 2 := by norm_num
    have hv : |(2:ℚ) - t/2| = 2 - t/2 := abs_of_pos hpos
    rw [h2', hv]
    show max (2 - 0/1) (max (2 - t/2 - 0/1) (0:ℚ)) = 2
    rw [zero_div, sub_zero, sub_zero, max_eq_left hpos.le, max_eq_left hle2]
  have hsign2 : rsign 2 = 1 := by unfold rsign; norm_num
  have hsignv : rsign (2 - t/2) = 1 := by
    unfold rsign
    rw [if_neg (not_lt.mpr hpos.le), if_neg (ne_of_gt hpos)]
  have hz : softThreshold ![(2:ℚ), 2 - t/2] (0 / 1) = ![2, 2] := by
    funext i
    unfold softThreshold
    rw [hofn, hmax]
    fin_cases i
    · show rsign 2 * 2 = 2
      rw [hsign2, one_mul]
    · show rsign (2 - t/2) * 2 = 2
      rw [hsignv, one_mul]
  have hu : (fun i => (![(0:ℚ), 1 - t]) i + (![(2:ℚ), 1 + t/2]) i - (![(2:ℚ), 2]) i)
      = ![0, 1 - (1 + t/2)] := by
    funext i
    fin_cases i <;> simp <;> ring
  show (admmStep _ _ _ _ _) = _
  unfold admmStep
  simp only [hx, harg, hz, hu]

lemma admm_demo_orbit :
    ∀ j : ℕ, ∃ t : ℚ, 3/2 ≤ t ∧ t < 2 ∧
      (admmStep !![(1:ℚ)/2, 0; 0, 1/2] ![2, 1] 1 0)^[j]
          (![2, 7/4], ![2, 2], ![0, 1 - 7/4])
        = (![2, t], ![2, 2], ![0, 1 - t])
  | 0 => ⟨7/4, by norm_num, by norm_num, rfl⟩
  | j + 1 => by
    obtain ⟨t, ht1, ht2, heq⟩ := admm_demo_orbit j
    refine ⟨1 + t/2, by linarith, by linarith, ?_⟩
    rw [Function.iterate_succ_apply', heq, admm_demo_step t ht1 ht2]

lemma admm_demo_first_two :
    (admmStep !![(1:ℚ)/2, 0; 0, 1/2] ![2, 1] 1 0)^[2] (admmInit 2)
      = (![2, 7/4], ![2, 2], ![0, 1 - 7/4]) := by
  with_unfolding_all decide

/-- C1: the LASSO ADMM with `lambda = 0`, `rho = 1` does *not* return the
ordinary-least-squares estimate: on the full-column-rank design `X = I₂` with
`y = (2, 1)` the OLS coefficients are `(2, 1)`, while after the 100 ADMM
iterations `x.step = (2, t)` with `t ≥ 3/2` (the iterates converge to
`(2, 2)`).  The culprit is `soft.threshold`, whose R `max` is a whole-vector
reduction rather than the element-wise operator announced in the notebook. -/
theorem admm_lambda0_ne_ols :
    (1 : Matrix (Fin 2) (Fin 2) ℚ).rank = 2 ∧
    admmRun (1 : Matrix (Fin 2) (Fin 2) ℚ) ![2, 1] 0 1 ≠ olsCoefficients 1 ![2, 1] := by
  constructor
  · have hr : (1 : Matrix (Fin 2) (Fin 2) ℚ).rank = Fintype.card (Fin 2) :=
      Matrix.rank_one
    rw [hr]
    rfl
  · have hols : olsCoefficients (1 : Matrix (Fin 2) (Fin 2) ℚ) ![2, 1] = ![2, 1] := by
      unfold olsCoefficients
      rw [Matrix.transpose_one, Matrix.one_mul, inv_one, Matrix.one_mulVec,
        Matrix.one_mulVec]
    have hXty : (1 : Matrix (Fin 2) (Fin 2) ℚ).transpose *ᵥ ![2, 1] = ![2, 1] := by
      rw [Matrix.transpose_one, Matrix.one_mulVec]
    obtain ⟨t, ht1, _ht2, horb⟩ := admm_demo_orbit 98
    have hrun : admmRun (1 : Matrix (Fin 2) (Fin 2) ℚ) ![2, 1] 0 1 = ![2, t] := by
      unfold admmRun
      rw [admm_demo_inv, hXty]
      rw [show (100:ℕ) = 98 + 2 by norm_num, Function.iterate_add_apply,
        admm_demo_first_two, horb]
    intro hcontra
    rw [hrun, hols] at hcontra
    have := congrFun hcontra 1
    simp at this
    linarith

/-- C4 witness: the termination theorem applied to the SPD matrix `A = (1)`,
`b = (0)` and the starting iterate `x0 = (1)`, whose SPD hypothesis is
discharged by `spd_one_fin1`. -/
theorem cg_terminates_witness :
    SPD (1 : Matrix (Fin 1) (Fin 1) ℚ) ∧
    ∃ n, n ≤ 1 ∧ cgIters 1 1 (cgInit 1 ![(0:ℚ)] ![1]) = some n ∧
      ¬ anyGtTol (cgLoop 1 n (cgInit 1 ![(0:ℚ)] ![1])).rk :=
  ⟨spd_one_fin1, cg_terminates 1 ![(0:ℚ)] ![1] spd_one_fin1⟩

/-! ### The extended Kalman filter from `extended_kalman_filter.ipynb`

```python
def observation_model(x, w, k, beta):
    return np.add(np.cos(np.multiply(beta, x)), np.multiply(k, w))

def update_posterior_mean(y, x, w, k, beta, observation_model, mu_p, K):
    obs = observation_model(x, w, k, beta)
    su = np.dot(K, np.subtract(y, obs) - 2)
    return np.asarray(np.add(mu_p, su)).reshape(-1)

def update_prior_covariance(cov_m, cov_v, A, L):
    su1 = np.matmul(np.matmul(A, cov_m), A.T)
    su2 = np.matmul(np.matmul(L, cov_v), L.T)
    return np.add(su1, su2)

def k_k(cov_p, cov_w, B, J):
    cov_p_b = np.matmul(cov_p, B.T)
    cov_w_j = np.matmul(cov_w, J.T)
    within = np.add(np.matmul(B, cov_p_b), np.matmul(J, cov_w_j))
    return np.matmul(cov_p_b, np.linalg.inv(within))

def update_posterior_covariance(K, B, cov_p):
    I = np.diag([1] * K.shape[0])
    su = np.subtract(I, np.matmul(K, B))
    return np.matmul(su, cov_p)
```
-/

/-- `observation_model(x, w, k, beta) = cos(beta * x) + k * w`, element-wise. -/
noncomputable def observation_model {d : ℕ} (x w : Fin d → ℝ) (k beta : ℝ) :
    Fin d → ℝ :=
  fun i => Real.cos (beta * x i) + k * w i

/-- `update_posterior_mean`: note the `- 2` applied to `y - obs` before the
gain is applied (`np.dot(K, np.subtract(y, obs) - 2)`). -/
noncomputable def update_posterior_mean {d : ℕ} (y x w : Fin d → ℝ) (k beta : ℝ)
    (obs_model : (Fin d → ℝ) → (Fin d → ℝ) → ℝ → ℝ → (Fin d → ℝ))
    (mu_p : Fin d → ℝ) (K : Matrix (Fin d) (Fin d) ℝ) : Fin d → ℝ :=
  fun i => mu_p i + (K *ᵥ (fun j => y j - obs_model x w k beta j - 2)) i

/-- `update_prior_covariance(cov_m, cov_v, A, L) = A Σm Aᵀ + L Σv Lᵀ`. -/
def update_prior_covariance {d : ℕ} (cov_m cov_v A L : Matrix (Fin d) (Fin d) ℝ) :
    Matrix (Fin d) (Fin d) ℝ :=
  A * cov_m * A.transpose + L * cov_v * L.transpose

/-- The Kalman gain `k_k(cov_p, cov_w, B, J) = Σp Bᵀ (B Σp Bᵀ + J Σw Jᵀ)⁻¹`. -/
noncomputable def k_k {d : ℕ} (cov_p cov_w B J : Matrix (Fin d) (Fin d) ℝ) :
    Matrix (Fin d) (Fin d) ℝ :=
  (cov_p * B.transpose)
    * (B * (cov_p * B.transpose) + J * (cov_w * J.transpose))⁻¹

/-- `update_posterior_covariance(K, B, cov_p) = (I - K B) Σp`. -/
def update_posterior_covariance {d : ℕ} (K B cov_p : Matrix (Fin d) (Fin d) ℝ) :
    Matrix (Fin d) (Fin d) ℝ :=
  (1 - K * B) * cov_p

/-! ### C2: the posterior-mean update deviates from its stated formula -/

/-- C2: the code's `update_posterior_mean` contradicts the formula
`μm = μp + K (y - h(μp, 0))` stated in the notebook's own markdown cell: at
`y = 0`, `μp = 0`, `w = 0`, `k = 1`, `beta = 0`, `K = I` (dimension 1) the
code returns `-3` (because of the spurious `- 2`), while the formula gives
`-1`. -/
theorem update_posterior_mean_ne_formula :
    update_posterior_mean ![(0:ℝ)] ![0] ![0] 1 0 observation_model ![0]
        (1 : Matrix (Fin 1) (Fin 1) ℝ)
      ≠ fun i => (![(0:ℝ)]) i + ((1 : Matrix (Fin 1) (Fin 1) ℝ) *ᵥ
          (fun j => (![(0:ℝ)]) j - observation_model ![0] ![0] 1 0 j)) i := by
  intro hcontra
  have h0 := congrFun hcontra 0
  simp only [update_posterior_mean, observation_model, Matrix.one_mulVec] at h0
  norm_num [Real.cos_zero] at h0

/-! ### C7: the covariance updates preserve positive semi-definiteness -/

/-- Joseph-style rewriting of `(1 - K B) Σp` when `K (B Σp Bᵀ + W) = Σp Bᵀ`. -/
lemma joseph_form {d : ℕ} (Sp W K B : Matrix (Fin d) (Fin d) ℝ)
    (hK : K * (B * Sp * B.transpose + W) = Sp * B.transpose) :
    (1 - K * B) * Sp
      = (1 - K * B) * Sp * (1 - K * B).transpose + K * W * K.transpose := by
  have hKW : K * W = Sp * B.transpose - K * (B * Sp * B.transpose) := by
    rw [Matrix.mul_add] at hK
    rw [← hK, add_sub_cancel_left]
  have hsub : K * W * K.transpose
      = (Sp * B.transpose - K * (B * Sp * B.transpose)) * K.transpose := by
    rw [hKW]
  rw [Matrix.transpose_sub, Matrix.transpose_one, Matrix.transpose_mul, hsub]
  noncomm_ring

/-- The posterior update `(1 - K B) Σp` is positive semi-definite whenever
the gain satisfies `K (B Σp Bᵀ + W) = Σp Bᵀ` for some positive semi-definite
noise term `W`. -/
lemma posterior_psd_of_gain {d : ℕ} (Sp W K B : Matrix (Fin d) (Fin d) ℝ)
    (hp : Sp.PosSemidef) (hWpsd : W.PosSemidef)
    (hK : K * (B * Sp * B.transpose + W) = Sp * B.transpose) :
    ((1 - K * B) * Sp).PosSemidef := by
  rw [joseph_form Sp W K B hK]
  have hpsd1 : ((1 - K * B) * Sp * (1 - K * B).transpose).PosSemidef := by
    rw [← Matrix.conjTranspose_eq_transpose_of_trivial]
    exact hp.mul_mul_conjTranspose_same (1 - K * B)
  have hpsd2 : (K * W * K.transpose).PosSemidef := by
    rw [← Matrix.conjTranspose_eq_transpose_of_trivial]
    exact hWpsd.mul_mul_conjTranspose_same K
  exact hpsd1.add hpsd2

/-- C7: for symmetric positive semi-definite covariances and diagonal
Jacobians of matching size, `update_prior_covariance` returns a positive
semi-definite matrix, and `update_posterior_covariance` applied to the gain
`k_k(cov_p, cov_w, B, J)` computed from the same `cov_p` returns a positive
semi-definite matrix (assuming the inverted matrix inside `k_k` is
invertible, as `np.linalg.inv` requires). -/
theorem ekf_covariance_updates_posSemidef {d : ℕ}
    (cov_m cov_v cov_w cov_p A L B J : Matrix (Fin d) (Fin d) ℝ)
    (hm : cov_m.PosSemidef) (hv : cov_v.PosSemidef) (hw : cov_w.PosSemidef)
    (hp : cov_p.PosSemidef)
    (_hA : A.IsDiag) (_hL : L.IsDiag) (_hB : B.IsDiag) (_hJ : J.IsDiag)
    (hdet : IsUnit (B * (cov_p * B.transpose) + J * (cov_w * J.transpose)).det) :
    (update_prior_covariance cov_m cov_v A L).PosSemidef ∧
    (update_posterior_covariance (k_k cov_p cov_w B J) B cov_p).PosSemidef := by
  constructor
  · have e1 : (A * cov_m * A.transpose).PosSemidef := by
      rw [← Matrix.conjTranspose_eq_transpose_of_trivial A]
      exact hm.mul_mul_conjTranspose_same A
    have e2 : (L * cov_v * L.transpose).PosSemidef := by
      rw [← Matrix.conjTranspose_eq_transpose_of_trivial L]
      exact hv.mul_mul_conjTranspose_same L
    exact e1.add e2
  · have hWpsd : (J * (cov_w * J.transpose)).PosSemidef := by
      rw [← Matrix.mul_assoc, ← Matrix.conjTranspose_eq_transpose_of_trivial J]
      exact hw.mul_mul_conjTranspose_same J
    have hK : (cov_p * B.transpose)
          * (B * (cov_p * B.transpose) + J * (cov_w * J.transpose))⁻¹
          * (B * cov_p * B.transpose + J * (cov_w * J.transpose))
        = cov_p * B.transpose := by
      rw [show B * cov_p * B.transpose = B * (cov_p * B.transpose) from
        Matrix.mul_assoc B cov_p B.transpose]
      rw [Matrix.mul_assoc, Matrix.nonsing_inv_mul _ hdet, Matrix.mul_one]
    exact posterior_psd_of_gain cov_p (J * (cov_w * J.transpose)) _ B hp hWpsd hK

/-- The `1 × 1` identity over `ℝ`, named to keep the witness statement
readable. -/
def idR1 : Matrix (Fin 1) (Fin 1) ℝ := 1

/-- C7 witness: dimension 1 with every covariance and Jacobian equal to the
identity; the inverted matrix is `(2)`, with determinant `2 ≠ 0`. -/
theorem ekf_covariance_updates_posSemidef_witness :
    idR1.PosSemidef ∧ idR1.IsDiag ∧
    IsUnit (idR1 * (idR1 * idR1.transpose) + idR1 * (idR1 * idR1.transpose)).det ∧
    (update_prior_covariance idR1 idR1 idR1 idR1).PosSemidef ∧
    (update_posterior_covariance (k_k idR1 idR1 idR1 idR1) idR1 idR1).PosSemidef := by
  have hone : idR1.PosSemidef := Matrix.PosSemidef.one
  have hdiag : idR1.IsDiag := Matrix.isDiag_one
  have hdet : IsUnit (idR1 * (idR1 * idR1.transpose)
      + idR1 * (idR1 * idR1.transpose)).det := by
    have h2 : (idR1 * (idR1 * idR1.transpose)
        + idR1 * (idR1 * idR1.transpose)).det = 2 := by
      show (idR1 * (idR1 * (1 : Matrix (Fin 1) (Fin 1) ℝ).transpose)
        + idR1 * (idR1 * (1 : Matrix (Fin 1) (Fin 1) ℝ).transpose)).det = 2
      rw [Matrix.transpose_one]
      show ((idR1 * (idR1 * 1) + idR1 * (idR1 * 1)).det : ℝ) = 2
      rw [Matrix.mul_one]
      show (((1 : Matrix (Fin 1) (Fin 1) ℝ) * 1 + 1 * 1).det : ℝ) = 2
      rw [Matrix.mul_one, Matrix.det_fin_one]
      simp [Matrix.one_apply]
      norm_num
    rw [h2]
    exact isUnit_iff_ne_zero.mpr two_ne_zero
  obtain ⟨hprior, hpost⟩ := ekf_covariance_updates_posSemidef
    idR1 idR1 idR1 idR1 idR1 idR1 idR1 idR1
    hone hone hone hone hdiag hdiag hdiag hdiag hdet
  exact ⟨hone, hdiag, hdet, hprior, hpost⟩

/-! ### The Householder QR decomposition from `admm.ipynb` (Python part)

```python
def House(a):
    I = np.eye(a.shape[0])
    v = a / (a[0] + np.copysign(np.linalg.norm(a), a[0]))
    v[0] = 1
    H = I - (2 / np.dot(v, v)) * np.dot(v[:, None], v[None, :])
    return H

def qr(A):
    m, n = A.shape
    Q = np.eye(m)
    for i in range(n - (m == n)):
        H = np.eye(m)
        H[i:, i:] = House(A[i:, i])
        Q = np.dot(Q, H)
        A = np.dot(H, A)
    return Q, A
```
-/

/-- numpy's `copysign(a, b)`: `|a|` carrying the sign of `b`.  Reals have no
signed zero; numpy's `+0.0` takes the positive branch, as does `b = 0` here. -/
noncomputable def copysign (a b : ℝ) : ℝ := if b < 0 then -|a| else |a|

/-- numpy's `linalg.norm`: the Euclidean norm `sqrt(Σ v_i^2)`. -/
noncomputable def npNorm {m : ℕ} (v : Fin m → ℝ) : ℝ := Real.sqrt (∑ r, v r ^ 2)

/-- The pivot subcolumn `A[i:, i]`, embedded as a full-height vector that is
zero above row `i` (and zero everywhere when `i` is out of range). -/
def subCol {m n : ℕ} (A : Matrix (Fin m) (Fin n) ℝ) (i : ℕ) : Fin m → ℝ :=
  fun r => if h : i ≤ (r : ℕ) ∧ i < n then A r ⟨i, h.2⟩ else 0

/-- The entry of `v` at position `i` (zero when out of range): the local
entry `a[0]` of the pivot subcolumn at step `i` is its global row `i`. -/
def entryAt {m : ℕ} (v : Fin m → ℝ) (i : ℕ) : ℝ :=
  if h : i < m then v ⟨i, h⟩ else 0

/-- The scalar `a[0] + copysign(norm(a), a[0])` that `House` divides by. -/
noncomputable def houseS {m n : ℕ} (A : Matrix (Fin m) (Fin n) ℝ) (i : ℕ) : ℝ :=
  entryAt (subCol A i) i
    + copysign (npNorm (subCol A i)) (entryAt (subCol A i) i)

/-- The Householder vector of `House(A[i:, i])`: `v = a / s` with the first
(block-local) entry overwritten to `1`, embedded as a full-height vector that
vanishes above row `i`. -/
noncomputable def houseV {m n : ℕ} (A : Matrix (Fin m) (Fin n) ℝ) (i : ℕ) :
    Fin m → ℝ :=
  fun r =>
    if (r : ℕ) < i then 0
    else if (r : ℕ) = i then 1
    else subCol A i r / houseS A i

/-- The step-`i` reflector: `H = np.eye(m)` with
`H[i:, i:] = House(A[i:, i]) = I - (2 / v·v) v vᵀ`.  Because `houseV A i`
vanishes above row `i`, this equals `1 - (2 / v·v) v vᵀ` at full size. -/
noncomputable def houseH {m n : ℕ} (A : Matrix (Fin m) (Fin n) ℝ) (i : ℕ) :
    Matrix (Fin m) (Fin m) ℝ :=
  1 - (2 / (houseV A i ⬝ᵥ houseV A i)) •
    Matrix.vecMulVec (houseV A i) (houseV A i)

/-- One iteration of the `qr` loop: `Q <- Q H`, `A <- H A`. -/
noncomputable def qrStep {m n : ℕ}
    (QA : Matrix (Fin m) (Fin m) ℝ × Matrix (Fin m) (Fin n) ℝ) (i : ℕ) :
    Matrix (Fin m) (Fin m) ℝ × Matrix (Fin m) (Fin n) ℝ :=
  (QA.1 * houseH QA.2 i, houseH QA.2 i * QA.2)

/-- The `qr` loop over a list of pivot indices. -/
noncomputable def qrGo {m n : ℕ} :
    List ℕ → Matrix (Fin m) (Fin m) ℝ × Matrix (Fin m) (Fin n) ℝ →
      Matrix (Fin m) (Fin m) ℝ × Matrix (Fin m) (Fin n) ℝ
  | [], QA => QA
  | i :: l, QA => qrGo l (qrStep QA i)

/-- The iteration count `n - (m == n)` of the `for` loop. -/
def qrStepCount (m n : ℕ) : ℕ := n - (if m = n then 1 else 0)

/-- The state `(Q, A)` after the first `k` iterations of the `qr` loop. -/
noncomputable def qrPartial {m n : ℕ} (A : Matrix (Fin m) (Fin n) ℝ) (k : ℕ) :
    Matrix (Fin m) (Fin m) ℝ × Matrix (Fin m) (Fin n) ℝ :=
  qrGo (List.range k) (1, A)

/-- `qr(A)`: start from `Q = np.eye(m)`, run `range(n - (m == n))` Householder
steps, and return the pair `(Q, A)`. -/
noncomputable def qr {m n : ℕ} (A : Matrix (Fin m) (Fin n) ℝ) :
    Matrix (Fin m) (Fin m) ℝ × Matrix (Fin m) (Fin n) ℝ :=
  qrGo (List.range (qrStepCount m n)) (1, A)

/-! #### Orthogonality of the reflectors -/

lemma houseV_of_lt {m n : ℕ} (A : Matrix (Fin m) (Fin n) ℝ) (i : ℕ)
    (r : Fin m) (h : (r : ℕ) < i) : houseV A i r = 0 := by
  unfold houseV
  rw [if_pos h]

lemma houseV_self {m n : ℕ} (A : Matrix (Fin m) (Fin n) ℝ) (i : ℕ)
    (h : i < m) : houseV A i ⟨i, h⟩ = 1 := by
  unfold houseV
  rw [if_neg (lt_irrefl i), if_pos rfl]

lemma one_le_houseV_dot {m n : ℕ} (A : Matrix (Fin m) (Fin n) ℝ) (i : ℕ)
    (h : i < m) : 1 ≤ houseV A i ⬝ᵥ houseV A i := by
  have hterm : houseV A i ⟨i, h⟩ * houseV A i ⟨i, h⟩ = 1 := by
    rw [houseV_self A i h]; norm_num
  calc (1:ℝ) = houseV A i ⟨i, h⟩ * houseV A i ⟨i, h⟩ := hterm.symm
    _ ≤ ∑ r, houseV A i r * houseV A i r :=
        Finset.single_le_sum (fun r _ => mul_self_nonneg (houseV A i r))
          (Finset.mem_univ ⟨i, h⟩)
    _ = houseV A i ⬝ᵥ houseV A i := rfl

lemma vecMulVec_self_transpose {m : ℕ} (v : Fin m → ℝ) :
    (Matrix.vecMulVec v v).transpose = Matrix.vecMulVec v v := by
  ext r c
  simp [Matrix.transpose_apply, Matrix.vecMulVec_apply, mul_comm]

lemma vecMulVec_self_mul_self {m : ℕ} (v : Fin m → ℝ) :
    Matrix.vecMulVec v v * Matrix.vecMulVec v v
      = (v ⬝ᵥ v) • Matrix.vecMulVec v v := by
  ext r c
  rw [Matrix.mul_apply, Matrix.smul_apply, Matrix.vecMulVec_apply]
  calc ∑ k, Matrix.vecMulVec v v r k * Matrix.vecMulVec v v k c
      = ∑ k, (v k * v k) * (v r * v c) := by
        refine Finset.sum_congr rfl fun k _ => ?_
        rw [Matrix.vecMulVec_apply, Matrix.vecMulVec_apply]
        ring
    _ = (∑ k, v k * v k) * (v r * v c) := by rw [Finset.sum_mul]
    _ = (v ⬝ᵥ v) • (v r * v c) := by rw [smul_eq_mul]; rfl

lemma houseH_transpose {m n : ℕ} (A : Matrix (Fin m) (Fin n) ℝ) (i : ℕ) :
    (houseH A i).transpose = houseH A i := by
  unfold houseH
  rw [Matrix.transpose_sub, Matrix.transpose_one, Matrix.transpose_smul,
    vecMulVec_self_transpose]

lemma reflection_sq {m : ℕ} (X : Matrix (Fin m) (Fin m) ℝ)
    (hX : X * X = X + X) : (1 - X) * (1 - X) = 1 := by
  have expand : (1 - X) * (1 - X) = 1 - X - X + X * X := by noncomm_ring
  rw [expand, hX]
  abel

lemma houseH_mul_self {m n : ℕ} (A : Matrix (Fin m) (Fin n) ℝ) (i : ℕ)
    (him : i < m) : houseH A i * houseH A i = 1 := by
  have hnv : houseV A i ⬝ᵥ houseV A i ≠ 0 := by
    have := one_le_houseV_dot A i him
    intro h
    rw [h] at this
    linarith
  unfold houseH
  refine reflection_sq _ ?_
  rw [Matrix.smul_mul, Matrix.mul_smul, vecMulVec_self_mul_self, smul_smul,
    smul_smul]
  have hc : 2 / (houseV A i ⬝ᵥ houseV A i)
      * (2 / (houseV A i ⬝ᵥ houseV A i)) * (houseV A i ⬝ᵥ houseV A i)
      = 2 / (houseV A i ⬝ᵥ houseV A i) + 2 / (houseV A i ⬝ᵥ houseV A i) := by
    field_simp
    ring
  rw [hc, add_smul]

/-! #### Zeroing of the pivot column -/

/-- The scalar heart of the Householder reflection: with `s = a i0 + t`,
`t² = Σ a², v i0 = 1` and `v r = a r / s` off the pivot, applying
`I - (2 / v·v) v vᵀ` to `a` kills every entry except the pivot one. -/
lemma house_zero_core {m : ℕ} (a v : Fin m → ℝ) (i0 : Fin m) (s t : ℝ)
    (hs : s = a i0 + t) (ht2 : t ^ 2 = ∑ x, a x ^ 2) (hsne : s ≠ 0)
    (hvi : v i0 = 1) (hvother : ∀ x, x ≠ i0 → v x = a x / s)
    (hvvne : v ⬝ᵥ v ≠ 0) (r : Fin m) (hr : r ≠ i0) :
    a r - (2 / (v ⬝ᵥ v)) * (v r * (v ⬝ᵥ a)) = 0 := by
  have hD : t ^ 2 = a i0 ^ 2 + ∑ x ∈ Finset.univ.erase i0, a x ^ 2 := by
    rw [ht2, ← Finset.add_sum_erase Finset.univ (fun x => a x ^ 2)
      (Finset.mem_univ i0)]
  have hva : v ⬝ᵥ a = a i0 + (∑ x ∈ Finset.univ.erase i0, a x ^ 2) / s := by
    show ∑ x, v x * a x = _
    rw [← Finset.add_sum_erase Finset.univ (fun x => v x * a x)
      (Finset.mem_univ i0), hvi, one_mul]
    congr 1
    rw [Finset.sum_div]
    refine Finset.sum_congr rfl fun x hx => ?_
    rw [hvother x (Finset.ne_of_mem_erase hx)]
    ring
  have hvv : v ⬝ᵥ v = 1 + (∑ x ∈ Finset.univ.erase i0, a x ^ 2) / s ^ 2 := by
    show ∑ x, v x * v x = _
    rw [← Finset.add_sum_erase Finset.univ (fun x => v x * v x)
      (Finset.mem_univ i0), hvi, one_mul]
    congr 1
    rw [Finset.sum_div]
    refine Finset.sum_congr rfl fun x hx => ?_
    rw [hvother x (Finset.ne_of_mem_erase hx)]
    ring
  have hkey : 2 * (v ⬝ᵥ a) = s * (v ⬝ᵥ v) := by
    have hDval : (∑ x ∈ Finset.univ.erase i0, a x ^ 2) = t ^ 2 - a i0 ^ 2 := by
      linarith [hD]
    have hdiv : (t ^ 2 - a i0 ^ 2) / s = s - 2 * a i0 := by
      rw [div_eq_iff hsne, hs]
      ring
    have hdiv2 : (t ^ 2 - a i0 ^ 2) / s ^ 2 = (s - 2 * a i0) / s := by
      rw [div_eq_div_iff (pow_ne_zero 2 hsne) hsne, hs]
      ring
    rw [hva, hvv, hDval, hdiv, hdiv2]
    have hexp : s * (1 + (s - 2 * a i0) / s) = s + (s - 2 * a i0) := by
      field_simp
    rw [hexp]
    ring
  have hfinal : (2 / (v ⬝ᵥ v)) * ((a r / s) * (v ⬝ᵥ a)) = a r := by
    have hva2 : v ⬝ᵥ a = s * (v ⬝ᵥ v) / 2 := by linarith [hkey]
    rw [hva2]
    field_simp
    ring
  rw [hvother r hr, hfinal, sub_self]

lemma entryAt_subCol {m n : ℕ} (A : Matrix (Fin m) (Fin n) ℝ) (i : ℕ)
    (him : i < m) : entryAt (subCol A i) i = subCol A i ⟨i, him⟩ := by
  unfold entryAt
  rw [dif_pos him]

lemma subCol_of_lt {m n : ℕ} (A : Matrix (Fin m) (Fin n) ℝ) (i : ℕ)
    (r : Fin m) (h : (r : ℕ) < i) : subCol A i r = 0 := by
  unfold subCol
  rw [dif_neg]
  intro hcon
  exact absurd hcon.1 (not_le.mpr h)

lemma subCol_of_ge {m n : ℕ} (A : Matrix (Fin m) (Fin n) ℝ) (i : ℕ)
    (hin : i < n) (r : Fin m) (h : i ≤ (r : ℕ)) :
    subCol A i r = A r ⟨i, hin⟩ := by
  unfold subCol
  rw [dif_pos ⟨h, hin⟩]

lemma houseS_eq {m n : ℕ} (A : Matrix (Fin m) (Fin n) ℝ) (i : ℕ) (him : i < m) :
    houseS A i = subCol A i ⟨i, him⟩
      + copysign (npNorm (subCol A i)) (entryAt (subCol A i) i) := by
  unfold houseS
  rw [entryAt_subCol A i him]

lemma copysign_sq {m : ℕ} (v : Fin m → ℝ) (b : ℝ) :
    copysign (npNorm v) b ^ 2 = ∑ x, v x ^ 2 := by
  have hnn : (0:ℝ) ≤ ∑ x, v x ^ 2 :=
    Finset.sum_nonneg fun x _ => sq_nonneg (v x)
  unfold copysign npNorm
  split_ifs with hb
  · rw [neg_pow, sq_abs, Real.sq_sqrt hnn]
    ring
  · rw [sq_abs, Real.sq_sqrt hnn]

lemma houseS_ne_zero {m n : ℕ} (A : Matrix (Fin m) (Fin n) ℝ) (i : ℕ)
    (him : i < m) (hpiv : subCol A i ≠ 0) : houseS A i ≠ 0 := by
  have hNNpos : 0 < ∑ x, subCol A i x ^ 2 := by
    obtain ⟨r0, hr0⟩ := Function.ne_iff.mp hpiv
    exact Finset.sum_pos' (fun x _ => sq_nonneg _)
      ⟨r0, Finset.mem_univ r0, pow_two_pos_of_ne_zero hr0⟩
  have hsq : 0 < Real.sqrt (∑ x, subCol A i x ^ 2) := Real.sqrt_pos.mpr hNNpos
  rw [houseS_eq A i him]
  unfold copysign npNorm
  split_ifs with hb
  · rw [entryAt_subCol A i him] at hb
    have habs : |Real.sqrt (∑ x, subCol A i x ^ 2)|
        = Real.sqrt (∑ x, subCol A i x ^ 2) := abs_of_pos hsq
    rw [habs]
    intro hcon
    nlinarith
  · rw [entryAt_subCol A i him] at hb
    push_neg at hb
    have habs : |Real.sqrt (∑ x, subCol A i x ^ 2)|
        = Real.sqrt (∑ x, subCol A i x ^ 2) := abs_of_pos hsq
    rw [habs]
    intro hcon
    nlinarith

lemma houseV_other {m n : ℕ} (A : Matrix (Fin m) (Fin n) ℝ) (i : ℕ)
    (him : i < m) (x : Fin m) (hx : x ≠ ⟨i, him⟩) :
    houseV A i x = subCol A i x / houseS A i := by
  unfold houseV
  by_cases hlt : (x : ℕ) < i
  · rw [if_pos hlt, subCol_of_lt A i x hlt, zero_div]
  · have hne : (x : ℕ) ≠ i := by
      intro hcon
      exact hx (Fin.ext hcon)
    rw [if_neg hlt, if_neg hne]

lemma houseH_mul_zeroes_pivot {m n : ℕ} (A : Matrix (Fin m) (Fin n) ℝ)
    (i : ℕ) (him : i < m) (hin : i < n) (hpiv : subCol A i ≠ 0) :
    ∀ r : Fin m, i < (r : ℕ) → (houseH A i * A) r ⟨i, hin⟩ = 0 := by
  intro r hr
  have hvvne : houseV A i ⬝ᵥ houseV A i ≠ 0 := by
    have := one_le_houseV_dot A i him
    intro h
    rw [h] at this
    linarith
  have hcol : ∑ k, houseV A i k * A k ⟨i, hin⟩
      = houseV A i ⬝ᵥ subCol A i := by
    refine Finset.sum_congr rfl fun k _ => ?_
    by_cases hk : (k : ℕ) < i
    · rw [houseV_of_lt A i k hk, zero_mul, zero_mul]
    · rw [subCol_of_ge A i hin k (not_lt.mp hk)]
  have hentry : (houseH A i * A) r ⟨i, hin⟩
      = A r ⟨i, hin⟩ - (2 / (houseV A i ⬝ᵥ houseV A i))
          * (houseV A i r * (houseV A i ⬝ᵥ subCol A i)) := by
    have hsum : (∑ k, houseV A i r * houseV A i k * A k ⟨i, hin⟩)
        = houseV A i r * (houseV A i ⬝ᵥ subCol A i) := by
      calc (∑ k, houseV A i r * houseV A i k * A k ⟨i, hin⟩)
          = ∑ k, houseV A i r * (houseV A i k * A k ⟨i, hin⟩) :=
            Finset.sum_congr rfl fun k _ => by ring
        _ = houseV A i r * ∑ k, houseV A i k * A k ⟨i, hin⟩ :=
            (Finset.mul_sum Finset.univ
              (fun k => houseV A i k * A k ⟨i, hin⟩) (houseV A i r)).symm
        _ = houseV A i r * (houseV A i ⬝ᵥ subCol A i) := by rw [hcol]
    unfold houseH
    rw [Matrix.sub_mul, Matrix.smul_mul, Matrix.one_mul]
    rw [Matrix.sub_apply, Matrix.smul_apply, smul_eq_mul]
    have hM : (Matrix.vecMulVec (houseV A i) (houseV A i) * A) r ⟨i, hin⟩
        = ∑ k, houseV A i r * houseV A i k * A k ⟨i, hin⟩ := by
      rw [Matrix.mul_apply]
      exact Finset.sum_congr rfl fun k _ => by rw [Matrix.vecMulVec_apply]
    rw [hM, hsum]
  have hrne : r ≠ (⟨i, him⟩ : Fin m) := by
    intro hcon
    rw [hcon] at hr
    exact lt_irrefl i hr
  have hAr : A r ⟨i, hin⟩ = subCol A i r :=
    (subCol_of_ge A i hin r (le_of_lt hr)).symm
  rw [hentry, hAr]
  exact house_zero_core (subCol A i) (houseV A i) ⟨i, him⟩ (houseS A i)
    (copysign (npNorm (subCol A i)) (entryAt (subCol A i) i))
    (houseS_eq A i him) (copysign_sq (subCol A i) _)
    (houseS_ne_zero A i him hpiv) (houseV_self A i him)
    (houseV_other A i him) hvvne r hrne

/-! #### The loop invariant and C5 -/

/-- Columns `c < k` of `A` vanish below the diagonal. -/
def TriBelow {m n : ℕ} (k : ℕ) (A : Matrix (Fin m) (Fin n) ℝ) : Prop :=
  ∀ (r : Fin m) (c : Fin n), (c : ℕ) < k → (c : ℕ) < (r : ℕ) → A r c = 0

lemma houseH_mul_preserves_col {m n : ℕ} (A : Matrix (Fin m) (Fin n) ℝ)
    (i : ℕ) (c : Fin n) (hzero : ∀ j : Fin m, i ≤ (j : ℕ) → A j c = 0) :
    ∀ r : Fin m, (houseH A i * A) r c = A r c := by
  intro r
  have hsum : (∑ k, houseV A i k * A k c) = 0 := by
    refine Finset.sum_eq_zero fun k _ => ?_
    by_cases hk : (k : ℕ) < i
    · rw [houseV_of_lt A i k hk, zero_mul]
    · rw [hzero k (not_lt.mp hk), mul_zero]
  unfold houseH
  rw [Matrix.sub_mul, Matrix.smul_mul, Matrix.one_mul]
  rw [Matrix.sub_apply, Matrix.smul_apply, smul_eq_mul]
  have hM : (Matrix.vecMulVec (houseV A i) (houseV A i) * A) r c
      = houseV A i r * ∑ k, houseV A i k * A k c := by
    rw [Matrix.mul_apply,
      Finset.mul_sum Finset.univ (fun k => houseV A i k * A k c) (houseV A i r)]
    exact Finset.sum_congr rfl fun k _ => by rw [Matrix.vecMulVec_apply]; ring
  rw [hM, hsum, mul_zero, mul_zero, sub_zero]

lemma qrStep_triBelow {m n : ℕ} (A : Matrix (Fin m) (Fin n) ℝ) (i : ℕ)
    (him : i < m) (hin : i < n) (hpiv : subCol A i ≠ 0) (htri : TriBelow i A) :
    TriBelow (i + 1) (houseH A i * A) := by
  intro r c hc hcr
  rcases Nat.lt_succ_iff_lt_or_eq.mp hc with hci | hci
  · rw [houseH_mul_preserves_col A i c
      (fun j hj => htri j c hci (lt_of_lt_of_le hci hj))]
    exact htri r c hci hcr
  · have hcfin : c = ⟨i, hin⟩ := Fin.ext hci
    subst hcfin
    exact houseH_mul_zeroes_pivot A i him hin hpiv r hcr

lemma qrGo_append {m n : ℕ} (l1 l2 : List ℕ)
    (QA : Matrix (Fin m) (Fin m) ℝ × Matrix (Fin m) (Fin n) ℝ) :
    qrGo (l1 ++ l2) QA = qrGo l2 (qrGo l1 QA) := by
  induction l1 generalizing QA with
  | nil => rfl
  | cons i l ih => rw [List.cons_append, qrGo, qrGo, ih]

lemma qrPartial_zero {m n : ℕ} (A : Matrix (Fin m) (Fin n) ℝ) :
    qrPartial A 0 = (1, A) := rfl

lemma qrPartial_succ {m n : ℕ} (A : Matrix (Fin m) (Fin n) ℝ) (k : ℕ) :
    qrPartial A (k + 1) = qrStep (qrPartial A k) k := by
  unfold qrPartial
  rw [List.range_succ, qrGo_append]
  rfl

lemma qrStepCount_le {m n : ℕ} : qrStepCount m n ≤ n := Nat.sub_le _ _

lemma lt_m_of_lt_qrStepCount {m n : ℕ} (hmn : n ≤ m) (k : ℕ)
    (hk : k < qrStepCount m n) : k < m := by
  unfold qrStepCount at hk
  by_cases h : m = n
  · rw [if_pos h] at hk
    omega
  · rw [if_neg h] at hk
    omega

lemma lt_n_of_lt_qrStepCount {m n : ℕ} (k : ℕ) (hk : k < qrStepCount m n) :
    k < n :=
  lt_of_lt_of_le hk qrStepCount_le

lemma qrPartial_spec {m n : ℕ} (hmn : n ≤ m) (A : Matrix (Fin m) (Fin n) ℝ) :
    ∀ k, k ≤ qrStepCount m n →
      (∀ j, j < k → subCol (qrPartial A j).2 j ≠ 0) →
      (qrPartial A k).1.transpose * (qrPartial A k).1 = 1 ∧
      (qrPartial A k).1 * (qrPartial A k).2 = A ∧
      TriBelow k (qrPartial A k).2
  | 0, _, _ => by
    refine ⟨?_, ?_, ?_⟩
    · rw [qrPartial_zero]
      show (1 : Matrix (Fin m) (Fin m) ℝ).transpose * 1 = 1
      rw [Matrix.transpose_one, Matrix.one_mul]
    · rw [qrPartial_zero]
      show (1 : Matrix (Fin m) (Fin m) ℝ) * A = A
      rw [Matrix.one_mul]
    · exact fun r c hc _ => absurd hc (Nat.not_lt_zero _)
  | k + 1, hk, hpiv => by
    have hklt : k < qrStepCount m n := Nat.lt_of_succ_le hk
    have hkm : k < m := lt_m_of_lt_qrStepCount hmn k hklt
    have hkn : k < n := lt_n_of_lt_qrStepCount k hklt
    obtain ⟨hQ, hQA, htri⟩ := qrPartial_spec hmn A k (Nat.le_of_lt hklt)
      (fun j hj => hpiv j (Nat.lt_succ_of_lt hj))
    have hpivk : subCol (qrPartial A k).2 k ≠ 0 := hpiv k (Nat.lt_succ_self k)
    rw [qrPartial_succ]
    refine ⟨?_, ?_, ?_⟩
    · show ((qrPartial A k).1 * houseH (qrPartial A k).2 k).transpose
        * ((qrPartial A k).1 * houseH (qrPartial A k).2 k) = 1
      rw [Matrix.transpose_mul, Matrix.mul_assoc,
        ← Matrix.mul_assoc (qrPartial A k).1.transpose, hQ, Matrix.one_mul,
        houseH_transpose, houseH_mul_self _ k hkm]
    · show (qrPartial A k).1 * houseH (qrPartial A k).2 k
        * (houseH (qrPartial A k).2 k * (qrPartial A k).2) = A
      rw [Matrix.mul_assoc, ← Matrix.mul_assoc (houseH (qrPartial A k).2 k),
        houseH_mul_self _ k hkm, Matrix.one_mul, hQA]
    · exact qrStep_triBelow (qrPartial A k).2 k hkm hkn hpivk htri

lemma qr_mul_eq {m n : ℕ} (hmn : n ≤ m) (A : Matrix (Fin m) (Fin n) ℝ)
    (hpiv : ∀ j, j < qrStepCount m n → subCol (qrPartial A j).2 j ≠ 0) :
    (qr A).1 * (qr A).2 = A :=
  (qrPartial_spec hmn A (qrStepCount m n) le_rfl hpiv).2.1

lemma qr_orthogonal {m n : ℕ} (hmn : n ≤ m) (A : Matrix (Fin m) (Fin n) ℝ)
    (hpiv : ∀ j, j < qrStepCount m n → subCol (qrPartial A j).2 j ≠ 0) :
    (qr A).1.transpose * (qr A).1 = 1 :=
  (qrPartial_spec hmn A (qrStepCount m n) le_rfl hpiv).1

lemma qr_upper_triangular {m n : ℕ} (hmn : n ≤ m) (A : Matrix (Fin m) (Fin n) ℝ)
    (hpiv : ∀ j, j < qrStepCount m n → subCol (qrPartial A j).2 j ≠ 0) :
    ∀ (r : Fin m) (c : Fin n), (c : ℕ) < (r : ℕ) → (qr A).2 r c = 0 := by
  have htri := (qrPartial_spec hmn A (qrStepCount m n) le_rfl hpiv).2.2
  intro r c hcr
  refine htri r c ?_ hcr
  unfold qrStepCount
  by_cases h : m = n
  · rw [if_pos h]
    have hrm : (r : ℕ) < n := h ▸ r.isLt
    omega
  · rw [if_neg h]
    exact c.isLt

/-- C5: under the claim's hypotheses — `m ≥ n`, full column rank, and every
Householder pivot subcolumn (of the current iterate) nonzero — `qr(A)`
returns a pair `(Q, R)` with `Q R = A`, `Qᵀ Q = I` and `R` upper triangular
(in exact arithmetic). -/
theorem qr_is_qr_factorization {m n : ℕ} (hmn : n ≤ m)
    (A : Matrix (Fin m) (Fin n) ℝ) (_hrank : A.rank = n)
    (hpiv : ∀ j, j < qrStepCount m n → subCol (qrPartial A j).2 j ≠ 0) :
    (qr A).1 * (qr A).2 = A ∧
    (qr A).1.transpose * (qr A).1 = 1 ∧
    ∀ (r : Fin m) (c : Fin n), (c : ℕ) < (r : ℕ) → (qr A).2 r c = 0 :=
  ⟨qr_mul_eq hmn A hpiv, qr_orthogonal hmn A hpiv,
    qr_upper_triangular hmn A hpiv⟩

/-- C5 witness: on the 1×1 matrix `(2)` (full column rank, no Householder
steps are executed since `range(n - (m == n))` is empty) the factorization is
`Q = I`, `R = A`. -/
theorem qr_is_qr_factorization_witness :
    (1 ≤ 1 ∧ (!![(2:ℝ)]).rank = 1 ∧
      (∀ j, j < qrStepCount 1 1 → subCol (qrPartial !![(2:ℝ)] j).2 j ≠ 0)) ∧
    ((qr !![(2:ℝ)]).1 * (qr !![(2:ℝ)]).2 = !![(2:ℝ)] ∧
      (qr !![(2:ℝ)]).1.transpose * (qr !![(2:ℝ)]).1 = 1 ∧
      ∀ (r c : Fin 1), (c : ℕ) < (r : ℕ) → (qr !![(2:ℝ)]).2 r c = 0) := by
  have hrank : (!![(2:ℝ)]).rank = 1 := by
    have hunit : IsUnit (!![(2:ℝ)]) := by
      rw [Matrix.isUnit_iff_isUnit_det, Matrix.det_fin_one]
      norm_num
    have := Matrix.rank_of_isUnit !![(2:ℝ)] hunit
    simpa using this
  have hsteps : qrStepCount 1 1 = 0 := by
    unfold qrStepCount
    rw [if_pos rfl]
  have hpiv : ∀ j, j < qrStepCount 1 1 → subCol (qrPartial !![(2:ℝ)] j).2 j ≠ 0 := by
    intro j hj
    rw [hsteps] at hj
    exact absurd hj (Nat.not_lt_zero j)
  exact ⟨⟨le_rfl, hrank, hpiv⟩,
    qr_is_qr_factorization le_rfl !![(2:ℝ)] hrank hpiv⟩

/-! ### C6: the QR-based least-squares coefficients

```python
R = R[:P, :P]
Q = Q[:, :P]
beta_qr = linalg.solve_triangular(R, np.dot(Q.T, y))
```
-/

/-- `R[:P, :P]`. -/
def subRMat {m P : ℕ} (h : P ≤ m) (R : Matrix (Fin m) (Fin P) ℝ) :
    Matrix (Fin P) (Fin P) ℝ :=
  fun i j => R (Fin.castLE h i) j

/-- `Q[:, :P]`. -/
def subQMat {m P : ℕ} (h : P ≤ m) (Q : Matrix (Fin m) (Fin m) ℝ) :
    Matrix (Fin m) (Fin P) ℝ :=
  fun r j => Q r (Fin.castLE h j)

/-- Modelled from the spec: `scipy.linalg.solve_triangular(R, b)` (library
code, not part of the repository) solves `R x = b` for an invertible
upper-triangular `R`; in exact arithmetic the solution is `R⁻¹ b`. -/
noncomputable def solve_triangular {P : ℕ} (R : Matrix (Fin P) (Fin P) ℝ)
    (b : Fin P → ℝ) : Fin P → ℝ :=
  R⁻¹ *ᵥ b

/-- `beta_qr = solve_triangular(R[:P,:P], Q[:, :P].T @ y)` with
`(Q, R) = qr(x)`. -/
noncomputable def beta_qr {m P : ℕ} (h : P ≤ m) (x : Matrix (Fin m) (Fin P) ℝ)
    (y : Fin m → ℝ) : Fin P → ℝ :=
  solve_triangular (subRMat h (qr x).2) ((subQMat h (qr x).1).transpose *ᵥ y)

/-- The residual sum of squares `‖y - x b‖²`. -/
def rss {m P : ℕ} (x : Matrix (Fin m) (Fin P) ℝ) (y : Fin m → ℝ)
    (b : Fin P → ℝ) : ℝ :=
  (y - x *ᵥ b) ⬝ᵥ (y - x *ᵥ b)

lemma thin_factorization {m P : ℕ} (h : P ≤ m) (Q : Matrix (Fin m) (Fin m) ℝ)
    (R : Matrix (Fin m) (Fin P) ℝ)
    (htri : ∀ (r : Fin m) (c : Fin P), (c : ℕ) < (r : ℕ) → R r c = 0) :
    Q * R = subQMat h Q * subRMat h R := by
  ext r j
  rw [Matrix.mul_apply, Matrix.mul_apply]
  have step1 : ∑ c, Q r c * R c j
      = ∑ k ∈ Finset.range m,
          (if hk : k < m then Q r ⟨k, hk⟩ * R ⟨k, hk⟩ j else 0) := by
    rw [← Fin.sum_univ_eq_sum_range
      (fun k => if hk : k < m then Q r ⟨k, hk⟩ * R ⟨k, hk⟩ j else 0) m]
    refine Finset.sum_congr rfl fun c _ => ?_
    show Q r c * R c j
      = if hk : (c : ℕ) < m then Q r ⟨c, hk⟩ * R ⟨c, hk⟩ j else 0
    rw [dif_pos c.isLt]
  have step2 : ∑ k ∈ Finset.range P,
        (if hk : k < m then Q r ⟨k, hk⟩ * R ⟨k, hk⟩ j else 0)
      = ∑ i, subQMat h Q r i * subRMat h R i j := by
    rw [← Fin.sum_univ_eq_sum_range
      (fun k => if hk : k < m then Q r ⟨k, hk⟩ * R ⟨k, hk⟩ j else 0) P]
    refine Finset.sum_congr rfl fun i _ => ?_
    show (if hk : (i : ℕ) < m then Q r ⟨i, hk⟩ * R ⟨i, hk⟩ j else 0)
      = subQMat h Q r i * subRMat h R i j
    rw [dif_pos (lt_of_lt_of_le i.isLt h)]
    rfl
  have stepmid : ∑ k ∈ Finset.range m,
        (if hk : k < m then Q r ⟨k, hk⟩ * R ⟨k, hk⟩ j else 0)
      = ∑ k ∈ Finset.range P,
        (if hk : k < m then Q r ⟨k, hk⟩ * R ⟨k, hk⟩ j else 0) := by
    refine (Finset.sum_subset (Finset.range_subset.mpr h) ?_).symm
    intro k hkm hkP
    rw [Finset.mem_range] at hkm
    rw [Finset.mem_range] at hkP
    rw [dif_pos hkm,
      htri ⟨k, hkm⟩ j (lt_of_lt_of_le j.isLt (le_of_not_lt hkP)), mul_zero]
  rw [step1, stepmid, step2]

lemma thin_orthogonal {m P : ℕ} (h : P ≤ m) (Q : Matrix (Fin m) (Fin m) ℝ)
    (hQ : Q.transpose * Q = 1) :
    (subQMat h Q).transpose * subQMat h Q = 1 := by
  ext i j
  have hfull := congrFun (congrFun hQ (Fin.castLE h i)) (Fin.castLE h j)
  rw [Matrix.mul_apply] at hfull
  rw [Matrix.mul_apply]
  have hsum : ∑ k, (subQMat h Q).transpose i k * subQMat h Q k j
      = ∑ k, Q.transpose (Fin.castLE h i) k * Q k (Fin.castLE h j) :=
    Finset.sum_congr rfl fun k _ => rfl
  rw [hsum, hfull]
  rw [Matrix.one_apply, Matrix.one_apply]
  by_cases hij : i = j
  · rw [if_pos (by rw [hij]), if_pos hij]
  · rw [if_neg (fun hc => hij (Fin.castLE_injective h hc)), if_neg hij]

/-- The abstract least-squares argument: if `Q1ᵀ Q1 = I` and
`R1 bq = Q1ᵀ y`, then `bq` minimises `‖y - (Q1 R1) b‖²` over `b`. -/
lemma qr_least_squares_core {m P : ℕ} (Q1 : Matrix (Fin m) (Fin P) ℝ)
    (R1 : Matrix (Fin P) (Fin P) ℝ) (y : Fin m → ℝ) (bq : Fin P → ℝ)
    (horth : Q1.transpose * Q1 = 1)
    (hsolve : R1 *ᵥ bq = Q1.transpose *ᵥ y) :
    ∀ b : Fin P → ℝ,
      (y - (Q1 * R1) *ᵥ bq) ⬝ᵥ (y - (Q1 * R1) *ᵥ bq)
        ≤ (y - (Q1 * R1) *ᵥ b) ⬝ᵥ (y - (Q1 * R1) *ᵥ b) := by
  intro b
  have hnormal : (Q1 * R1).transpose *ᵥ (y - (Q1 * R1) *ᵥ bq) = 0 := by
    rw [Matrix.transpose_mul, ← Matrix.mulVec_mulVec, Matrix.mulVec_sub]
    have hQQ : Q1.transpose *ᵥ ((Q1 * R1) *ᵥ bq) = R1 *ᵥ bq := by
      rw [Matrix.mulVec_mulVec, ← Matrix.mul_assoc, horth, Matrix.one_mul]
    rw [hQQ, hsolve, sub_self, Matrix.mulVec_zero]
  have hdecomp : y - (Q1 * R1) *ᵥ b
      = (y - (Q1 * R1) *ᵥ bq) + (Q1 * R1) *ᵥ (bq - b) := by
    rw [Matrix.mulVec_sub]
    abel
  have hcross : (y - (Q1 * R1) *ᵥ bq) ⬝ᵥ ((Q1 * R1) *ᵥ (bq - b)) = 0 := by
    rw [Matrix.dotProduct_mulVec, ← Matrix.mulVec_transpose, hnormal,
      Matrix.zero_dotProduct]
  have hcross' : ((Q1 * R1) *ᵥ (bq - b)) ⬝ᵥ (y - (Q1 * R1) *ᵥ bq) = 0 := by
    rw [Matrix.dotProduct_comm, hcross]
  have huu : 0 ≤ ((Q1 * R1) *ᵥ (bq - b)) ⬝ᵥ ((Q1 * R1) *ᵥ (bq - b)) :=
    Finset.sum_nonneg fun i _ => mul_self_nonneg _
  rw [hdecomp, Matrix.add_dotProduct, Matrix.dotProduct_add,
    Matrix.dotProduct_add, hcross, hcross']
  linarith

/-- C6: for a full-column-rank design `x` (with the Householder pivot
subcolumns nonzero, so the custom `qr` succeeds, and the diagonal of
`R[:P,:P]` nonzero, so the triangular solve succeeds), the coefficients
`beta_qr = solve_triangular(R[:P,:P], Q[:, :P]ᵀ y)` minimise the residual sum
of squares `‖y - x b‖²` — they are the least-squares (OLS) coefficients, in
exact arithmetic. -/
theorem beta_qr_minimizes {m P : ℕ} (hPm : P ≤ m)
    (x : Matrix (Fin m) (Fin P) ℝ) (y : Fin m → ℝ) (_hrank : x.rank = P)
    (hpiv : ∀ j, j < qrStepCount m P → subCol (qrPartial x j).2 j ≠ 0)
    (hdiag : ∀ i : Fin P, subRMat hPm (qr x).2 i i ≠ 0) :
    ∀ b : Fin P → ℝ, rss x y (beta_qr hPm x y) ≤ rss x y b := by
  have hthin : x = subQMat hPm (qr x).1 * subRMat hPm (qr x).2 := by
    rw [← thin_factorization hPm (qr x).1 (qr x).2
      (qr_upper_triangular hPm x hpiv)]
    exact (qr_mul_eq hPm x hpiv).symm
  have horth : (subQMat hPm (qr x).1).transpose * subQMat hPm (qr x).1 = 1 :=
    thin_orthogonal hPm (qr x).1 (qr_orthogonal hPm x hpiv)
  have hblock : (subRMat hPm (qr x).2).BlockTriangular id := by
    intro i j hij
    exact qr_upper_triangular hPm x hpiv (Fin.castLE hPm i) j hij
  have hunit : IsUnit (subRMat hPm (qr x).2).det := by
    rw [Matrix.det_of_upperTriangular hblock]
    exact isUnit_iff_ne_zero.mpr
      (Finset.prod_ne_zero_iff.mpr fun i _ => hdiag i)
  have hsolve : subRMat hPm (qr x).2 *ᵥ beta_qr hPm x y
      = (subQMat hPm (qr x).1).transpose *ᵥ y := by
    unfold beta_qr solve_triangular
    rw [Matrix.mulVec_mulVec, Matrix.mul_nonsing_inv _ hunit, Matrix.one_mulVec]
  intro b
  have hcore := qr_least_squares_core (subQMat hPm (qr x).1)
    (subRMat hPm (qr x).2) y (beta_qr hPm x y) horth hsolve b
  rw [← hthin] at hcore
  exact hcore

/-- C6 witness: `x = (2)` (1×1, full rank, no Householder steps run), `y = (6)`. -/
theorem beta_qr_minimizes_witness :
    ((!![(2:ℝ)]).rank = 1 ∧
      (∀ j, j < qrStepCount 1 1 → subCol (qrPartial !![(2:ℝ)] j).2 j ≠ 0) ∧
      (∀ i : Fin 1, subRMat (le_refl 1) (qr !![(2:ℝ)]).2 i i ≠ 0)) ∧
    (∀ b : Fin 1 → ℝ,
      rss !![(2:ℝ)] ![6] (beta_qr (le_refl 1) !![(2:ℝ)] ![6])
        ≤ rss !![(2:ℝ)] ![6] b) := by
  have hrank : (!![(2:ℝ)]).rank = 1 := by
    have hunit : IsUnit (!![(2:ℝ)]) := by
      rw [Matrix.isUnit_iff_isUnit_det, Matrix.det_fin_one]
      norm_num
    have := Matrix.rank_of_isUnit !![(2:ℝ)] hunit
    simpa using this
  have hsteps : qrStepCount 1 1 = 0 := by
    unfold qrStepCount
    rw [if_pos rfl]
  have hpiv : ∀ j, j < qrStepCount 1 1 → subCol (qrPartial !![(2:ℝ)] j).2 j ≠ 0 := by
    intro j hj
    rw [hsteps] at hj
    exact absurd hj (Nat.not_lt_zero j)
  have hqr2 : (qr !![(2:ℝ)]).2 = !![(2:ℝ)] := rfl
  have hdiag : ∀ i : Fin 1, subRMat (le_refl 1) (qr !![(2:ℝ)]).2 i i ≠ 0 := by
    intro i
    fin_cases i
    rw [hqr2]
    show (!![(2:ℝ)]) (Fin.castLE (le_refl 1) 0) 0 ≠ 0
    norm_num
  exact ⟨⟨hrank, hpiv, hdiag⟩,
    beta_qr_minimizes (le_refl 1) !![(2:ℝ)] ![6] hrank hpiv hdiag⟩

/-! ### C9: matrix dimensions -/

/-- The number of rows of a matrix (its row index type is `Fin m`). -/
def nrows {α : Type} {m n : ℕ} (_M : Matrix (Fin m) (Fin n) α) : ℕ := m

/-- The number of columns of a matrix (its column index type is `Fin n`). -/
def ncols {α : Type} {m n : ℕ} (_M : Matrix (Fin m) (Fin n) α) : ℕ := n

/-- C9 counterexample: the orthogonal factor `Q` returned by `qr` on the QR
notebook's 100×5 design matrix is 100×100 — its column count `100` violates
the claimed bound of at most `11` columns (the notebook itself prints
`Shape Q: (100, 100)`). -/
theorem qr_q_exceeds_column_bound :
    ncols ((qr (0 : Matrix (Fin 100) (Fin 5) ℝ)).1) = 100 ∧
    ¬ (ncols ((qr (0 : Matrix (Fin 100) (Fin 5) ℝ)).1) ≤ 11) :=
  ⟨rfl, by decide⟩

/-- C9 (amended): the dense matrices of the notebooks stay within 1000 rows,
but the column bound of 11 fails for the QR notebook: on a 100×5 design
matrix, `qr` returns `Q` of size 100×100 (within 1000 rows, 100 > 11
columns) and `R` of size 100×5. -/
theorem qr_matrix_dimensions (A : Matrix (Fin 100) (Fin 5) ℝ) :
    nrows A = 100 ∧ ncols A = 5 ∧
    nrows ((qr A).1) = 100 ∧ ncols ((qr A).1) = 100 ∧
    nrows ((qr A).2) = 100 ∧ ncols ((qr A).2) = 5 ∧
    nrows ((qr A).1) ≤ 1000 ∧ nrows ((qr A).2) ≤ 1000 :=
  ⟨rfl, rfl, rfl, rfl, rfl, rfl, by show (100:ℕ) ≤ 1000; decide,
    by show (100:ℕ) ≤ 1000; decide⟩

/-! ### C8: random seeds and determinism

`unnamed/part_000` calls `np.random.seed(23)` before drawing its data and
`gaussian_graphical_models.ipynb` calls `set.seed(1)`; the R LASSO section of
`admm.ipynb` calls `rnorm` with *no* preceding `set.seed` (the
`np.random.seed(23)` in that notebook belongs to its later Python QR
section).  A random-number generator session is modelled as a stream of
upcoming draws together with a position; seeding replaces the stream by one
determined by the seed alone. -/

/-- A generator session: the stream of draws and the next position. -/
structure RngSession where
  stream : ℕ → ℚ
  pos : ℕ

/-- Draw `k` consecutive values (`rnorm(k)`): the values and the advanced
session. -/
def drawMany (k : ℕ) (s : RngSession) : List ℚ × RngSession :=
  ((List.range k).map (fun j => s.stream (s.pos + j)), ⟨s.stream, s.pos + k⟩)

/-- `set.seed(seed)` / `np.random.seed(seed)`: the session becomes the stream
the library derives from the seed (the seed-to-stream map `rng`), at its
start — the previous session state is discarded. -/
def setSeed (rng : ℕ → ℕ → ℚ) (seed : ℕ) (_s : RngSession) : RngSession :=
  ⟨rng seed, 0⟩

/-- The `beta <- c(1, rnorm(p))` simulation of `admm.ipynb` with `p = 10`:
no `set.seed` precedes it, so it draws from the ambient session. -/
def admmSimBeta (s : RngSession) : List ℚ × RngSession :=
  (1 :: (drawMany 10 s).1, (drawMany 10 s).2)

/-- The stream of draws feeding `unnamed/part_000` after its
`np.random.seed(23)`. -/
def cgNotebookDraws (rng : ℕ → ℕ → ℚ) (ambient : RngSession) : ℕ → ℚ :=
  (setSeed rng 23 ambient).stream

/-- The stream of draws feeding `gaussian_graphical_models.ipynb` after its
`set.seed(1)`. -/
def ggmNotebookDraws (rng : ℕ → ℕ → ℚ) (ambient : RngSession) : ℕ → ℚ :=
  (setSeed rng 1 ambient).stream

/-- C8 counterexample: the ADMM notebook's simulated `beta` is *not* the same
in every run — it depends on the ambient generator state, because no
`set.seed` precedes the `rnorm` calls: the constant-`0` and constant-`1`
ambient streams give different `beta`. -/
theorem admm_beta_not_seeded :
    (admmSimBeta ⟨fun _ => 0, 0⟩).1 ≠ (admmSimBeta ⟨fun _ => 1, 0⟩).1 := by
  with_unfolding_all decide

/-- C8 (amended): the conjugate-gradient and graphical-lasso notebooks seed
their generators (`np.random.seed(23)`, `set.seed(1)`), so, for any fixed
library seed-to-stream map, the draws that produce their simulated data are
the same in every run, regardless of the ambient generator state; the ADMM
notebook's R simulation is not seeded and varies between runs. -/
theorem seeded_notebooks_deterministic (rng : ℕ → ℕ → ℚ)
    (ambient1 ambient2 : RngSession) :
    cgNotebookDraws rng ambient1 = cgNotebookDraws rng ambient2 ∧
    ggmNotebookDraws rng ambient1 = ggmNotebookDraws rng ambient2 :=
  ⟨rfl, rfl⟩

end Etudes
